import Mathlib

/-
Verification development for the NowVibin service-cloner token-rewriting
engine.

Shallow embedding of the two Python source variants:
  * backend/tools/clone/nv_service_clone.py  (quote-aware variant)
  * backend/tools/nv_service_clone.py        (context-free variant, `_v2`)

Python strings are modeled as `List Char`, byte buffers as `List Nat`.
Python's `str.replace` and the literal-pattern `re.sub` calls are modeled
by a single left-to-right scanner `subG` parameterized by the pattern, the
replacement, a negative word-lookbehind flag and a lookahead requirement.
Python's `\b` / `(?<![A-Za-z0-9_])` / `(?=[A-Za-z0-9_])` assertions over the
ASCII word-character class are modeled exactly; Python's `\b` is in general
Unicode-aware, but the spec defines identifier boundaries over the ASCII
class and every marker and slug character is ASCII, so the ASCII class is
the faithful model on the inputs the rules are about.
-/

/-- Conversion from a Lean string literal to the `List Char` model. -/
def str (s : String) : List Char := s.data

/-- ASCII word-character class `[A-Za-z0-9_]` used by the boundary checks
in the regex rules of both variants. -/
def wordChar (c : Char) : Bool :=
  ('a' ≤ c && c ≤ 'z') || ('A' ≤ c && c ≤ 'Z') || ('0' ≤ c && c ≤ '9') || c = '_'

/-- Lookahead requirement on the character that follows a matched token:
no requirement, must be a word character (`(?=[A-Za-z0-9_])`), or must be
absent or a non-word character (`(?![A-Za-z0-9_])`, also trailing `\b`). -/
inductive LA where
  | free : LA
  | word : LA
  | nonword : LA
deriving DecidableEq

/-- Evaluate a lookahead requirement against the rest of the input. -/
def laOk (la : LA) (s : List Char) : Bool :=
  match la, s with
  | LA.free, _ => true
  | LA.word, [] => false
  | LA.word, c :: _ => wordChar c
  | LA.nonword, [] => true
  | LA.nonword, c :: _ => !wordChar c

/-- Evaluate the negative word-lookbehind `(?<![A-Za-z0-9_])` (equivalently
a leading `\b` for a pattern starting with a word character): `prev` is the
character immediately before the current scan position in the original
string, `none` at the start of the string. -/
def lbOk (lb : Bool) (prev : Option Char) : Bool :=
  if lb then
    match prev with
    | none => true
    | some c => !wordChar c
  else true

/-- Match condition of the scanner at the current position: the literal
pattern is a prefix of the remaining input and both boundary assertions
hold.  (The empty pattern never matches; all patterns in the program are
nonempty.) -/
def subMatch (pat : List Char) (lb : Bool) (la : LA) (prev : Option Char)
    (s : List Char) : Bool :=
  !(pat.isEmpty) && List.isPrefixOf pat s && lbOk lb prev
    && laOk la (List.drop pat.length s)

/-- Fuel-indexed left-to-right substitution scanner: at each position, if
the literal pattern matches with its boundary assertions, emit the
replacement and continue after the matched text (as Python `re.sub` and
`str.replace` do); otherwise emit the character and advance by one.  The
lookbehind after a match sees the last character of the matched original
text, i.e. the last pattern character. -/
def subGF (pat rep : List Char) (lb : Bool) (la : LA) :
    Nat → Option Char → List Char → List Char
  | 0, _, s => s
  | _ + 1, _, [] => []
  | fuel + 1, prev, c :: rest =>
    if subMatch pat lb la prev (c :: rest) then
      rep ++ subGF pat rep lb la fuel (List.getLast? pat)
        (List.drop (pat.length - 1) rest)
    else
      c :: subGF pat rep lb la fuel (some c) rest

/-- Left-to-right substitution over a whole string (enough fuel). -/
def subG (pat rep : List Char) (lb : Bool) (la : LA) (prev : Option Char)
    (s : List Char) : List Char :=
  subGF pat rep lb la s.length prev s

/-- Python `s.replace(pat, rep)`: plain substring replacement, no boundary
checks, left-to-right, non-overlapping. -/
def pyReplace (s pat rep : List Char) : List Char :=
  subG pat rep false LA.free none s

/-- ASCII uppercase conversion of a single character (model of Python
`str.upper` on the ASCII slug domain). -/
def asciiUpperChar (c : Char) : Char :=
  if 'a' ≤ c && c ≤ 'z' then Char.ofNat (c.toNat - 32) else c

/-- ASCII lowercase conversion of a single character (model of Python
`str.lower` on the ASCII domain the program uses it on). -/
def asciiLowerChar (c : Char) : Char :=
  if 'A' ≤ c && c ≤ 'Z' then Char.ofNat (c.toNat + 32) else c

/-- Separator class of the split regex `[-_\s]+` in `to_pascal`
(ASCII whitespace model of `\s`). -/
def isSepChar (c : Char) : Bool :=
  c = '-' || c = '_' || c = ' ' || c = '\t' || c = '\n' || c = '\r'
    || c = '\x0b' || c = '\x0c'

/-- Fuel-indexed splitter: `re.split(r"[-_\s]+", s)` with empty pieces
dropped (the `if w` filter in `to_pascal`). -/
def splitWordsF : Nat → List Char → List (List Char)
  | 0, _ => []
  | _ + 1, [] => []
  | fuel + 1, c :: rest =>
    if isSepChar c then splitWordsF fuel rest
    else
      (c :: List.takeWhile (fun x => !isSepChar x) rest) ::
        splitWordsF fuel (List.dropWhile (fun x => !isSepChar x) rest)

/-- Nonempty dash/underscore/whitespace-separated words of a slug. -/
def splitWords (s : List Char) : List (List Char) :=
  splitWordsF s.length s

/-- One word of `to_pascal`: `w[:1].upper() + w[1:].lower()`. -/
def wordCase (w : List Char) : List Char :=
  match w with
  | [] => []
  | c :: r => asciiUpperChar c :: List.map asciiLowerChar r

/-- Model of `to_pascal` (both variants): uppercase the first character of
each dash-separated part, lowercase the remainder, concatenate. -/
def to_pascal (s : List Char) : List Char :=
  List.flatten (List.map wordCase (splitWords s))

/-- Model of `to_camel` (clone variant): `to_pascal` with its first
character lowercased. -/
def to_camel (s : List Char) : List Char :=
  match to_pascal s with
  | [] => []
  | c :: r => asciiLowerChar c :: r

/-- Model of `to_upper_underscore` (both variants):
`slug.replace("-", "_").upper()`. -/
def to_upper_underscore (s : List Char) : List Char :=
  List.map asciiUpperChar (List.map (fun c => if c = '-' then '_' else c) s)

/-- Model of clone-variant `rewrite_path`: four whole-path substring
replacements in fixed order, with no boundary checks. -/
def rewrite_path (p slug : List Char) : List Char :=
  let pascal := to_pascal slug
  let upper := to_upper_underscore slug
  let p1 := pyReplace p (str "t_entity_crud") slug
  let p2 := pyReplace p1 (str "Xxx") pascal
  let p3 := pyReplace p2 (str "XXX") upper
  pyReplace p3 (str "xxx") slug

/-- Model of clone-variant `apply_string_rules` (string/import/URL/message
context): Id rules first (`xxxId\b`, `<slug>Id\b`, no lookbehind), then the
plain replacements `t_entity_crud`, `Xxx`, `XXX`, `xxx` → dashed slug, then
the two dto-template flattening patterns. -/
def apply_string_rules (text slug : List Char) : List Char :=
  let camel := to_camel slug
  let camelId := camel ++ str "Id"
  let t1 := subG (str "xxxId") camelId false LA.nonword none text
  let t2 := subG (slug ++ str "Id") camelId false LA.nonword none t1
  let t3 := pyReplace t2 (str "t_entity_crud") slug
  let t4 := pyReplace t3 (str "Xxx") slug
  let t5 := pyReplace t4 (str "XXX") slug
  let t6 := pyReplace t5 (str "xxx") slug
  let t7 := subG (str "@nv/shared/dto/templates/xxx/xxx.dto")
    (str "@nv/shared/dto/" ++ slug ++ str ".dto") false LA.free none t6
  subG (str "@nv/shared/dto/templates/" ++ slug ++ str "/" ++ slug ++ str ".dto")
    (str "@nv/shared/dto/" ++ slug ++ str ".dto") false LA.free none t7

/-- Model of clone-variant `apply_code_rules` (code context, outside
quotes): `t_entity_crud`, then plain `XXX` and `Xxx` replacements (no
boundary checks), then the lookbehind-guarded `xxxId`/`<slug>Id` rules, then
the lookbehind-guarded `xxx` rules (identifier-prefix form, whole-token
form). -/
def apply_code_rules (text slug : List Char) : List Char :=
  let pascal := to_pascal slug
  let upper := to_upper_underscore slug
  let camel := to_camel slug
  let camelId := camel ++ str "Id"
  let t1 := pyReplace text (str "t_entity_crud") slug
  let t2 := pyReplace t1 (str "XXX") upper
  let t3 := pyReplace t2 (str "Xxx") pascal
  let t4 := subG (str "xxxId") camelId true LA.nonword none t3
  let t5 := subG (slug ++ str "Id") camelId true LA.nonword none t4
  let t6 := subG (str "xxx") slug true LA.word none t5
  subG (str "xxx") slug true LA.nonword none t6

/-- Quote characters recognized by the clone-variant segmenter. -/
def isQuoteChar (c : Char) : Bool :=
  c = '"' || c = '\'' || c = Char.ofNat 96

/-- Scan of a quoted span after its opening quote `q`, tracking the
single-character escape lookbehind: returns the consumed segment tail
(including the closing quote when one is found) and the remaining input.
An unterminated quote consumes everything to the end of the buffer. -/
def scanQ (q : Char) : Bool → List Char → List Char × List Char
  | _, [] => ([], [])
  | true, c :: rest =>
    let r := scanQ q false rest
    (c :: r.1, r.2)
  | false, c :: rest =>
    if c = '\\' then
      let r := scanQ q true rest
      (c :: r.1, r.2)
    else if c = q then ([c], rest)
    else
      let r := scanQ q false rest
      (c :: r.1, r.2)

/-- Fuel-indexed model of the segmentation-and-rewrite loop in
`rewrite_content_bytes`: alternating quoted spans (string rules applied to
the inner text `seg[1:-1]`; the span is rebuilt as `q + new_inner + q` only
when the inner text changed) and bare spans (code rules applied whole). -/
def rewriteTextF (slug : List Char) : Nat → List Char → List Char
  | 0, s => s
  | _ + 1, [] => []
  | fuel + 1, c :: rest =>
    if isQuoteChar c then
      let r := scanQ c false rest
      let inner := List.dropLast r.1
      let ni := apply_string_rules inner slug
      let seg := if ni = inner then c :: r.1 else (c :: ni) ++ [c]
      seg ++ rewriteTextF slug fuel r.2
    else
      apply_code_rules (c :: List.takeWhile (fun x => !isQuoteChar x) rest) slug
        ++ rewriteTextF slug fuel (List.dropWhile (fun x => !isQuoteChar x) rest)

/-- Whole-text content rewrite of the clone variant (decoded text level). -/
def rewrite_text (s slug : List Char) : List Char :=
  rewriteTextF slug s.length s

/-- Strict UTF-8 encoding of one scalar value (Python `str.encode`). -/
def utf8EncodeChar (c : Char) : List Nat :=
  let n := c.toNat
  if n < 0x80 then [n]
  else if n < 0x800 then [0xC0 + n / 64, 0x80 + n % 64]
  else if n < 0x10000 then
    [0xE0 + n / 4096, 0x80 + (n / 64) % 64, 0x80 + n % 64]
  else
    [0xF0 + n / 0x40000, 0x80 + (n / 4096) % 64, 0x80 + (n / 64) % 64,
      0x80 + n % 64]

/-- Strict UTF-8 encoding of a text (Python `str.encode("utf-8")`). -/
def encodeUtf8 (s : List Char) : List Nat :=
  List.flatten (List.map utf8EncodeChar s)

/-- UTF-8 continuation byte test. -/
def isCont (b : Nat) : Bool := 0x80 ≤ b && b ≤ 0xBF

/-- Range check of the second byte of a three-byte sequence (strict:
rejects overlong forms and surrogates, as Python `bytes.decode("utf-8")`
does). -/
def cont2ok (b b1 : Nat) : Bool :=
  if b = 0xE0 then 0xA0 ≤ b1 && b1 ≤ 0xBF
  else if b = 0xED then 0x80 ≤ b1 && b1 ≤ 0x9F
  else isCont b1

/-- Range check of the second byte of a four-byte sequence (strict). -/
def cont3ok (b b1 : Nat) : Bool :=
  if b = 0xF0 then 0x90 ≤ b1 && b1 ≤ 0xBF
  else if b = 0xF4 then 0x80 ≤ b1 && b1 ≤ 0x8F
  else isCont b1

/-- Fuel-indexed strict UTF-8 decoder (model of Python
`bytes.decode("utf-8")`, which raises `UnicodeDecodeError` on invalid
input — modeled as `none`). -/
def decodeUtf8F : Nat → List Nat → Option (List Char)
  | 0, [] => some []
  | 0, _ :: _ => none
  | _ + 1, [] => some []
  | fuel + 1, b :: rest =>
    if b < 0x80 then
      match decodeUtf8F fuel rest with
      | none => none
      | some cs => some (Char.ofNat b :: cs)
    else if 0xC2 ≤ b && b ≤ 0xDF then
      match rest with
      | b1 :: rest1 =>
        if isCont b1 then
          match decodeUtf8F fuel rest1 with
          | none => none
          | some cs => some (Char.ofNat ((b - 0xC0) * 64 + (b1 - 0x80)) :: cs)
        else none
      | [] => none
    else if 0xE0 ≤ b && b ≤ 0xEF then
      match rest with
      | b1 :: b2 :: rest2 =>
        if cont2ok b b1 && isCont b2 then
          match decodeUtf8F fuel rest2 with
          | none => none
          | some cs =>
            some (Char.ofNat ((b - 0xE0) * 4096 + (b1 - 0x80) * 64 + (b2 - 0x80)) :: cs)
        else none
      | _ => none
    else if 0xF0 ≤ b && b ≤ 0xF4 then
      match rest with
      | b1 :: b2 :: b3 :: rest3 =>
        if cont3ok b b1 && isCont b2 && isCont b3 then
          match decodeUtf8F fuel rest3 with
          | none => none
          | some cs =>
            some (Char.ofNat ((b - 0xF0) * 0x40000 + (b1 - 0x80) * 4096
              + (b2 - 0x80) * 64 + (b3 - 0x80)) :: cs)
        else none
      | _ => none
    else none

/-- Strict UTF-8 decoding of a byte buffer. -/
def decodeUtf8 (bs : List Nat) : Option (List Char) :=
  decodeUtf8F bs.length bs

/-- Text-extension allowlist of the clone variant. -/
def TEXT_EXT : List (List Char) :=
  [str ".ts", str ".tsx", str ".js", str ".jsx", str ".json", str ".md",
   str ".txt", str ".yml", str ".yaml", str ".sh", str ".bash", str ".zsh",
   str ".env", str ".gitignore", str ".gitattributes", str ".dockerignore",
   str ".Dockerfile", str ".tsconfig", str ".eslintrc", str ".prettierrc",
   str ".dto"]

/-- Binary-extension denylist (identical in both variants). -/
def BINARY_EXT : List (List Char) :=
  [str ".png", str ".jpg", str ".jpeg", str ".gif", str ".webp", str ".ico",
   str ".pdf", str ".zip", str ".tar", str ".gz", str ".tgz", str ".7z",
   str ".mp3", str ".mp4", str ".mov", str ".wav", str ".ogg", str ".woff",
   str ".woff2", str ".ttf", str ".eot"]

/-- Text-extension allowlist of the context-free variant (no `.dto`). -/
def TEXT_EXT_v2 : List (List Char) :=
  [str ".ts", str ".tsx", str ".js", str ".jsx", str ".json", str ".md",
   str ".txt", str ".yml", str ".yaml", str ".sh", str ".bash", str ".zsh",
   str ".env", str ".gitignore", str ".gitattributes", str ".dockerignore",
   str ".Dockerfile", str ".tsconfig", str ".eslintrc", str ".prettierrc"]

/-- Final path component (`pathlib.Path(p).name` on the normalized paths
the program feeds it: everything after the last slash). -/
def afterLastSlash (p : List Char) : List Char :=
  List.foldl (fun acc c => if c = '/' then [] else acc ++ [c]) [] p

/-- Index of the last dot of a name, if any (`name.rfind(".")`). -/
def lastDotIdx (name : List Char) : Option Nat :=
  match List.findIdx? (fun c => c = '.') name.reverse with
  | none => none
  | some j => some (name.length - 1 - j)

/-- Model of `pathlib.Path(p).suffix`: the part of the final component
from its last dot, empty when the last dot is the first or last character
of the name. -/
def pathSuffix (p : List Char) : List Char :=
  let name := afterLastSlash p
  match lastDotIdx name with
  | none => []
  | some i => if 0 < i && i < name.length - 1 then List.drop i name else []

/-- Scanner for `re.search(r"(^|/)(dir)(/|$)", p)`: does `dir` occur as a
whole path component? -/
def hasDirMarker (dir : List Char) : Option Char → List Char → Bool
  | _, [] => false
  | prev, c :: rest =>
    ((match prev with
      | none => true
      | some x => x = '/') && List.isPrefixOf dir (c :: rest) &&
      (match List.drop dir.length (c :: rest) with
       | [] => true
       | d :: _ => d = '/'))
    || hasDirMarker dir (some c) rest

/-- Model of clone-variant `is_text_file`: extension allowlist, then
denylist, then the `dist`/`node_modules` component check, defaulting to
text. -/
def is_text_file (p : List Char) : Bool :=
  let ext := List.map asciiLowerChar (pathSuffix p)
  if List.contains TEXT_EXT ext then true
  else if List.contains BINARY_EXT ext then false
  else if hasDirMarker (str "dist") none p
       || hasDirMarker (str "node_modules") none p then false
  else true

/-- Model of context-free-variant `is_text_file` (its allowlist lacks
`.dto`). -/
def is_text_file_v2 (p : List Char) : Bool :=
  let ext := List.map asciiLowerChar (pathSuffix p)
  if List.contains TEXT_EXT_v2 ext then true
  else if List.contains BINARY_EXT ext then false
  else if hasDirMarker (str "dist") none p
       || hasDirMarker (str "node_modules") none p then false
  else true

/-- First index at which two texts differ, scanning their common length
(Python `next((k for k,(a,b) in enumerate(zip(s,t)) if a!=b), -1)`). -/
def firstDiffIdx : List Char → List Char → Nat → Option Nat
  | a :: as, b :: bs, i => if a = b then firstDiffIdx as bs (i + 1) else some i
  | _, _, _ => none

/-- Control-character escaping of the diagnostic sample
(`.replace("\n","\\n").replace("\r","\\r").replace("\t","\\t")`). -/
def escapeSample (s : List Char) : List Char :=
  pyReplace (pyReplace (pyReplace s (str "\n") (str "\\n"))
    (str "\r") (str "\\r")) (str "\t") (str "\\t")

/-- Diagnostic sample around the first difference: a window of about 40
characters before and 120 after, with control characters escaped. -/
def makeSample (s t : List Char) : List Char :=
  let idx := match firstDiffIdx s t 0 with
    | some k => k
    | none => min s.length t.length
  let start := idx - 40
  let stop := min t.length (idx + 120)
  escapeSample (List.take (stop - start) (List.drop start t))

/-- Model of clone-variant `rewrite_content_bytes`: classify by path, pass
binary or undecodable payloads through unchanged with `changed = false`
and no sample, otherwise segment-and-rewrite the decoded text; `changed`
is true iff the output text differs, and a sample is produced only in
dry-run mode.  The Python function is total on these inputs (no exception
escapes it); the model is a total function. -/
def rewrite_content_bytes (data : List Nat) (file_path slug : List Char)
    (dry_run : Bool) : List Nat × Bool × Option (List Char) :=
  if !is_text_file file_path then (data, false, none)
  else
    match decodeUtf8 data with
    | none => (data, false, none)
    | some s =>
      let t := rewrite_text s slug
      if t ≠ s then
        (encodeUtf8 t, true, if dry_run then some (makeSample s t) else none)
      else (data, false, none)

/-- Model of context-free-variant `rewrite_path` (its `path_rules`):
`t_entity_crud` plain, then `\bxxx\b`, `\bXxx\b`, `\bXXX\b` with ASCII word
boundaries. -/
def rewrite_path_v2 (p slug : List Char) : List Char :=
  let pascal := to_pascal slug
  let upper := to_upper_underscore slug
  let p1 := pyReplace p (str "t_entity_crud") slug
  let p2 := subG (str "xxx") slug true LA.nonword none p1
  let p3 := subG (str "Xxx") pascal true LA.nonword none p2
  subG (str "XXX") upper true LA.nonword none p3

/-- Model of context-free-variant `content_rules` applied in order to the
whole text, with no string/code distinction: boundary-guarded `xxx`, `Xxx`,
`XXX`, then plain `t_entity_crud`. -/
def apply_content_rules_v2 (text slug : List Char) : List Char :=
  let pascal := to_pascal slug
  let upper := to_upper_underscore slug
  let t1 := subG (str "xxx") slug true LA.nonword none text
  let t2 := subG (str "Xxx") pascal true LA.nonword none t1
  let t3 := subG (str "XXX") upper true LA.nonword none t2
  pyReplace t3 (str "t_entity_crud") slug

/-- Model of context-free-variant `rewrite_content`: same pass-through
structure as the clone variant but whole-text rules and its own
classification lists. -/
def rewrite_content_v2 (data : List Nat) (file_path slug : List Char)
    (dry_run : Bool) : List Nat × Bool × Option (List Char) :=
  if !is_text_file_v2 file_path then (data, false, none)
  else
    match decodeUtf8 data with
    | none => (data, false, none)
    | some s =>
      let t := apply_content_rules_v2 s slug
      if t ≠ s then
        (encodeUtf8 t, true, if dry_run then some (makeSample s t) else none)
      else (data, false, none)

/-- Slug validation of both `main` functions:
`re.fullmatch(r"[a-z0-9-]+", slug)` — nonempty, lowercase ASCII letters,
digits and dashes only.  It is the only gate applied to the slug before
processing begins. -/
def valid_slug (s : List Char) : Bool :=
  !(s.isEmpty) && List.all s (fun c => ('a' ≤ c && c ≤ 'z')
    || ('0' ≤ c && c ≤ '9') || c = '-')

/-- Model of the per-entry step of the clone-variant `main` loop
(lines 244 to 246): the path is rewritten first and the content rewrite is
invoked with the rewritten path, so the text/binary classification is
computed from the renamed path. -/
def process_entry (name : List Char) (data : List Nat) (slug : List Char)
    (dry_run : Bool) :
    List Char × (List Nat × Bool × Option (List Char)) :=
  let new_name := rewrite_path name slug
  (new_name, rewrite_content_bytes data new_name slug dry_run)

/-- Substring occurrence test: does `pat` occur contiguously in `s`? -/
def containsB (pat : List Char) : List Char → Bool
  | [] => List.isPrefixOf pat []
  | c :: rest => List.isPrefixOf pat (c :: rest) || containsB pat rest

/-- Absence, in a text, of every token the content passes can still act
on: the four marker spellings, the slug-plus-`Id` pattern, and the
slug-form dto-template path. -/
def markerFreeB (slug t : List Char) : Bool :=
  !containsB (str "t_entity_crud") t && !containsB (str "XXX") t
    && !containsB (str "Xxx") t && !containsB (str "xxx") t
    && !containsB (slug ++ str "Id") t
    && !containsB (str "@nv/shared/dto/templates/" ++ slug ++ str "/"
        ++ slug ++ str ".dto") t

/-- Absence, in a path, of every marker spelling the path rewrite acts
on. -/
def markerFreePathB (t : List Char) : Bool :=
  !containsB (str "t_entity_crud") t && !containsB (str "XXX") t
    && !containsB (str "Xxx") t && !containsB (str "xxx") t

/-- Every occurrence of `pat` in `s` is immediately preceded by an ASCII
word character (the character before the occurrence inside `s`, or the
scanner lookbehind state `prev` for an occurrence at the very start). -/
def PrecededOk (pat : List Char) (prev : Option Char) (s : List Char) : Prop :=
  ∀ a b, s = a ++ pat ++ b →
    (match List.getLast? a with
     | some c => wordChar c = true
     | none => ∃ c, prev = some c ∧ wordChar c = true)

/-! ### Scanner equations and basic lemmas -/

theorem subGF_fuel (pat rep : List Char) (lb : Bool) (la : LA) :
    ∀ f1 f2 : Nat, ∀ prev : Option Char, ∀ s : List Char,
      s.length ≤ f1 → s.length ≤ f2 →
      subGF pat rep lb la f1 prev s = subGF pat rep lb la f2 prev s := by
  intro f1
  induction f1 with
  | zero =>
    intro f2 prev s h1 _
    have hs : s = [] := List.eq_nil_of_length_eq_zero (Nat.le_zero.mp h1)
    subst hs
    cases f2 <;> rfl
  | succ f1 ih =>
    intro f2 prev s h1 h2
    cases s with
    | nil => cases f2 <;> rfl
    | cons c rest =>
      cases f2 with
      | zero => simp at h2
      | succ f2 =>
        simp only [subGF]
        by_cases hm : subMatch pat lb la prev (c :: rest) = true
        · rw [if_pos hm, if_pos hm]
          have hd : (List.drop (pat.length - 1) rest).length ≤ rest.length := by
            simp
          exact congrArg (rep ++ ·)
            (ih f2 _ _ (le_trans hd (Nat.le_of_succ_le_succ h1))
              (le_trans hd (Nat.le_of_succ_le_succ h2)))
        · rw [if_neg hm, if_neg hm]
          exact congrArg (c :: ·)
            (ih f2 _ _ (Nat.le_of_succ_le_succ h1) (Nat.le_of_succ_le_succ h2))

theorem subG_nil (pat rep : List Char) (lb : Bool) (la : LA) (prev : Option Char) :
    subG pat rep lb la prev [] = [] := rfl

theorem subG_cons (pat rep : List Char) (lb : Bool) (la : LA) (prev : Option Char)
    (c : Char) (rest : List Char) :
    subG pat rep lb la prev (c :: rest) =
      if subMatch pat lb la prev (c :: rest) then
        rep ++ subG pat rep lb la (List.getLast? pat) (List.drop (pat.length - 1) rest)
      else c :: subG pat rep lb la (some c) rest := by
  show subGF pat rep lb la (rest.length + 1) prev (c :: rest) = _
  simp only [subGF]
  by_cases hm : subMatch pat lb la prev (c :: rest) = true
  · rw [if_pos hm, if_pos hm]
    exact congrArg (rep ++ ·) (subGF_fuel pat rep lb la _ _ _ _ (by simp) (by simp))
  · rw [if_neg hm, if_neg hm]
    exact congrArg (c :: ·) (subGF_fuel pat rep lb la _ _ _ _ (by simp) (by simp))

theorem containsB_cons (pat : List Char) (c : Char) (rest : List Char) :
    containsB pat (c :: rest)
      = (List.isPrefixOf pat (c :: rest) || containsB pat rest) := rfl

theorem subG_eq_self_of_not_contains (pat rep : List Char) (lb : Bool) (la : LA) :
    ∀ s : List Char, ∀ prev : Option Char,
      containsB pat s = false → subG pat rep lb la prev s = s := by
  intro s
  induction s with
  | nil => intro prev _; rfl
  | cons c rest ih =>
    intro prev h
    rw [containsB_cons, Bool.or_eq_false_iff] at h
    rw [subG_cons]
    have hm : subMatch pat lb la prev (c :: rest) = false := by
      simp [subMatch, h.1]
    rw [if_neg (by simp [hm])]
    exact congrArg (c :: ·) (ih _ h.2)

theorem subMatch_lb_false (pat : List Char) (la : LA) (p q : Option Char)
    (s : List Char) :
    subMatch pat false la p s = subMatch pat false la q s := by
  simp [subMatch, lbOk]

theorem subG_prev_irrel (pat rep : List Char) (la : LA) (p1 p2 : Option Char)
    (s : List Char) :
    subG pat rep false la p1 s = subG pat rep false la p2 s := by
  cases s with
  | nil => rfl
  | cons c rest =>
    rw [subG_cons, subG_cons, subMatch_lb_false pat la p1 p2]

theorem subG_self (pat : List Char) (lb : Bool) (la : LA) :
    ∀ n : Nat, ∀ s : List Char, s.length ≤ n → ∀ prev : Option Char,
      subG pat pat lb la prev s = s := by
  intro n
  induction n with
  | zero =>
    intro s h prev
    have hs : s = [] := List.eq_nil_of_length_eq_zero (Nat.le_zero.mp h)
    subst hs; rfl
  | succ n ih =>
    intro s h prev
    cases s with
    | nil => rfl
    | cons c rest =>
      rw [subG_cons]
      by_cases hm : subMatch pat lb la prev (c :: rest) = true
      · rw [if_pos hm]
        simp only [subMatch, Bool.and_eq_true] at hm
        obtain ⟨⟨⟨hne, hp⟩, _⟩, _⟩ := hm
        have hpre := List.isPrefixOf_iff_prefix.mp hp
        have heq : pat ++ List.drop pat.length (c :: rest) = c :: rest :=
          List.prefix_iff_eq_append.mp hpre
        obtain ⟨p0, ps, hps⟩ : ∃ p0 ps, pat = p0 :: ps := by
          cases pat with
          | nil => simp [List.isEmpty] at hne
          | cons p0 ps => exact ⟨p0, ps, rfl⟩
        have hdrop : List.drop (pat.length - 1) rest
            = List.drop pat.length (c :: rest) := by
          subst hps; simp
        rw [hdrop]
        have hlen1 : 1 ≤ pat.length := by subst hps; simp
        have hlen2 : (List.drop pat.length (c :: rest)).length ≤ n := by
          have h1 : (List.drop pat.length (c :: rest)).length
              = (c :: rest).length - pat.length := by simp
          have h2 : (c :: rest).length = rest.length + 1 := by simp
          have h3 : rest.length + 1 ≤ n + 1 := by
            rw [← h2]; exact h
          omega
        rw [ih _ hlen2 _, heq]
      · rw [if_neg hm]
        exact congrArg (c :: ·) (ih rest (Nat.le_of_succ_le_succ h) _)

theorem containsB_iff (pat : List Char) :
    ∀ s : List Char, containsB pat s = true ↔ ∃ a b, s = a ++ pat ++ b := by
  intro s
  induction s with
  | nil =>
    simp only [containsB]
    constructor
    · intro h
      rcases List.isPrefixOf_iff_prefix.mp h with ⟨t, ht⟩
      have hp : pat = [] := by
        cases pat with
        | nil => rfl
        | cons p0 ps => simp at ht
      exact ⟨[], [], by simp [hp]⟩
    · rintro ⟨a, b, hab⟩
      have hp : pat = [] := by
        have hl := congrArg List.length hab
        simp at hl
        exact List.eq_nil_of_length_eq_zero (by omega)
      apply List.isPrefixOf_iff_prefix.mpr
      simp [hp]
  | cons c rest ih =>
    rw [containsB_cons, Bool.or_eq_true]
    constructor
    · rintro (hp | hr)
      · refine ⟨[], List.drop pat.length (c :: rest), ?_⟩
        have := List.prefix_iff_eq_append.mp (List.isPrefixOf_iff_prefix.mp hp)
        simpa using this.symm
      · rcases ih.mp hr with ⟨a, b, hab⟩
        exact ⟨c :: a, b, by simp [hab]⟩
    · rintro ⟨a, b, hab⟩
      cases a with
      | nil =>
        left
        apply List.isPrefixOf_iff_prefix.mpr
        refine ⟨b, ?_⟩
        simpa using hab.symm
      | cons a0 as =>
        right
        apply ih.mpr
        refine ⟨as, b, ?_⟩
        have h2 := hab
        simp only [List.cons_append, List.cons.injEq] at h2
        exact h2.2

theorem containsB_true_mono (pat u y v : List Char)
    (h : containsB pat y = true) : containsB pat (u ++ y ++ v) = true := by
  rcases (containsB_iff pat y).mp h with ⟨a, b, hab⟩
  apply (containsB_iff pat _).mpr
  exact ⟨u ++ a, b ++ v, by simp [hab]⟩

theorem containsB_false_of_middle (pat x y u v : List Char)
    (hx : x = u ++ y ++ v) (h : containsB pat x = false) :
    containsB pat y = false := by
  cases hy : containsB pat y
  · rfl
  · exfalso
    have hm := containsB_true_mono pat u y v hy
    rw [← hx] at hm
    rw [h] at hm
    exact Bool.false_ne_true hm

theorem containsB_false_of_subpat (pat sub x u v : List Char)
    (hp : pat = u ++ sub ++ v) (h : containsB sub x = false) :
    containsB pat x = false := by
  cases hy : containsB pat x
  · rfl
  · exfalso
    rcases (containsB_iff pat x).mp hy with ⟨a, b, hab⟩
    have hc : containsB sub x = true := by
      apply (containsB_iff sub x).mpr
      exact ⟨a ++ u, v ++ b, by simp [hab, hp]⟩
    rw [h] at hc
    exact Bool.false_ne_true hc

/-! ### Claim C2 -/

/-- Claim C2 counterexample: rewriting the path `xxx/xxxId.dto.ts` with
slug `user-profile` does NOT return `user-profile/userProfileId.dto.ts`
(neither variant applies an Id rule to paths). -/
theorem c2_counterexample :
    rewrite_path (str "xxx/xxxId.dto.ts") (str "user-profile")
      ≠ str "user-profile/userProfileId.dto.ts"
    ∧ rewrite_path_v2 (str "xxx/xxxId.dto.ts") (str "user-profile")
      ≠ str "user-profile/userProfileId.dto.ts" := by
  exact ⟨by decide, by decide⟩

/-- Claim C2, amended: the clone variant rewrites the path
`xxx/xxxId.dto.ts` with slug `user-profile` to
`user-profile/user-profileId.dto.ts` (the Id-suffixed occurrence becomes
dashed slug plus `Id` because the path rewrite has no Id rule and no
boundary checks), while the context-free variant, whose path rules use
word boundaries, leaves `xxxId` alone and yields
`user-profile/xxxId.dto.ts`. -/
theorem c2_path_example_amended :
    rewrite_path (str "xxx/xxxId.dto.ts") (str "user-profile")
      = str "user-profile/user-profileId.dto.ts"
    ∧ rewrite_path_v2 (str "xxx/xxxId.dto.ts") (str "user-profile")
      = str "user-profile/xxxId.dto.ts" := by
  exact ⟨by decide, by decide⟩

/-! ### Claim C4 -/

/-- Claim C4: the two source variants are not behaviorally equivalent.
On the buffer `"Xxx"` (a capitalized marker inside a quoted string) with
slug `my-thing`, the quote-aware clone variant collapses the marker to the
dashed slug (the documented contract), while the context-free variant
applies its global `Xxx` rule and produces PascalCase; their outputs
differ. -/
theorem c4_variants_differ :
    rewrite_content_bytes (encodeUtf8 (str "\"Xxx\"")) (str "a.ts")
        (str "my-thing") false
      = (encodeUtf8 (str "\"my-thing\""), true, none)
    ∧ rewrite_content_v2 (encodeUtf8 (str "\"Xxx\"")) (str "a.ts")
        (str "my-thing") false
      = (encodeUtf8 (str "\"MyThing\""), true, none)
    ∧ (rewrite_content_bytes (encodeUtf8 (str "\"Xxx\"")) (str "a.ts")
        (str "my-thing") false).1
      ≠ (rewrite_content_v2 (encodeUtf8 (str "\"Xxx\"")) (str "a.ts")
        (str "my-thing") false).1 := by
  exact ⟨by decide, by decide, by decide⟩

/-! ### Claim C8 -/

/-- Claim C8: decode-failure recovery.  For every path, slug and dry-run
flag, a byte payload that fails strict UTF-8 decoding is passed through
byte-identical with `changed = false` and no sample, by both variants;
no error is surfaced (both model functions are total, as the Python
functions catch `UnicodeDecodeError` locally). -/
theorem c8_decode_failure (path : List Char) (data : List Nat)
    (slug : List Char) (dry : Bool) (hdec : decodeUtf8 data = none) :
    rewrite_content_bytes data path slug dry = (data, false, none)
    ∧ rewrite_content_v2 data path slug dry = (data, false, none) := by
  constructor
  · rw [rewrite_content_bytes]
    by_cases ht : is_text_file path
    · simp [ht, hdec]
    · simp [ht]
  · rw [rewrite_content_v2]
    by_cases ht : is_text_file_v2 path
    · simp [ht, hdec]
    · simp [ht]

/-- Witness for C8: the single byte `0xFF` is not valid UTF-8; on the
text-classified path `a.ts` it is passed through unchanged by both
variants. -/
theorem c8_witness :
    decodeUtf8 [255] = none ∧ is_text_file (str "a.ts") = true
    ∧ (rewrite_content_bytes [255] (str "a.ts") (str "order") false
        = ([255], false, none)
      ∧ rewrite_content_v2 [255] (str "a.ts") (str "order") false
        = ([255], false, none)) :=
  ⟨by decide, by decide,
    c8_decode_failure (str "a.ts") [255] (str "order") false (by decide)⟩

/-! ### Claim C9 -/

/-- Claim C9: slug validation (`re.fullmatch(r"[a-z0-9-]+", slug)` in both
`main` functions) accepts exactly the nonempty strings of lowercase ASCII
letters, digits and dashes; in particular the string `xxx` — lexically the
lowercase marker spelling — is accepted, and a slug such as `axxxb`, whose
derived forms regenerate marker occurrences, is accepted as well: the
fullmatch is the only gate applied to the slug. -/
theorem c9_slug_validation :
    (∀ s : List Char, valid_slug s = true ↔
      (s ≠ [] ∧ ∀ c ∈ s,
        ('a' ≤ c ∧ c ≤ 'z') ∨ ('0' ≤ c ∧ c ≤ '9') ∨ c = '-'))
    ∧ valid_slug (str "xxx") = true
    ∧ valid_slug (str "axxxb") = true
    ∧ valid_slug (str "Xxx") = false
    ∧ valid_slug (str "a_b") = false
    ∧ valid_slug [] = false := by
  refine ⟨?_, by decide, by decide, by decide, by decide, by decide⟩
  intro s
  rw [valid_slug, Bool.and_eq_true, List.all_eq_true]
  constructor
  · rintro ⟨h1, h2⟩
    refine ⟨by simpa using h1, fun c hc => ?_⟩
    have h3 := h2 c hc
    simp at h3
    tauto
  · rintro ⟨h1, h2⟩
    refine ⟨by simpa using h1, fun c hc => ?_⟩
    have h3 := h2 c hc
    simp
    tauto

/-! ### Claim C10 -/

/-- Claim C10: the clone-variant walker computes the text/binary
classification of the content rewrite from the rewritten path
(`process_entry` models `main` lines 244 to 246, which pass `new_name` to
`rewrite_content_bytes`).  Concretely: `doc.xxx` is classified text, but
with slug `png` the path is renamed to `doc.png`, which is classified
binary, so the payload is passed through unrewritten — whereas calling the
content rewrite with the original path would have rewritten it. -/
theorem c10_classification_from_renamed_path :
    is_text_file (str "doc.xxx") = true
    ∧ rewrite_path (str "doc.xxx") (str "png") = str "doc.png"
    ∧ is_text_file (str "doc.png") = false
    ∧ process_entry (str "doc.xxx") (encodeUtf8 (str "xxx api")) (str "png")
        false
      = (str "doc.png", (encodeUtf8 (str "xxx api"), false, none))
    ∧ rewrite_content_bytes (encodeUtf8 (str "xxx api")) (str "doc.xxx")
        (str "png") false
      = (encodeUtf8 (str "png api"), true, none) := by
  exact ⟨by decide, by decide, by decide, by decide, by decide⟩

/-! ### Counterexamples for claims C1, C3, C6, C7 -/

/-- Claim C1 counterexample: the slug `axxxb` matches the accepted
pattern and none of its derived forms (itself, Pascal, camel, UpperSnake)
is lexically a placeholder token, yet neither the path rewrite nor the
content rewrite is idempotent with it: the slug contains the lowercase
marker as a substring, so each output regenerates marker occurrences. -/
theorem c1_counterexample :
    valid_slug (str "axxxb") = true
    ∧ ((str "axxxb" ≠ str "xxx") ∧ (str "axxxb" ≠ str "Xxx")
      ∧ (str "axxxb" ≠ str "XXX") ∧ (str "axxxb" ≠ str "t_entity_crud"))
    ∧ (to_pascal (str "axxxb") = str "Axxxb"
      ∧ (str "Axxxb" ≠ str "xxx") ∧ (str "Axxxb" ≠ str "Xxx")
      ∧ (str "Axxxb" ≠ str "XXX") ∧ (str "Axxxb" ≠ str "t_entity_crud"))
    ∧ (to_camel (str "axxxb") = str "axxxb")
    ∧ (to_upper_underscore (str "axxxb") = str "AXXXB"
      ∧ (str "AXXXB" ≠ str "xxx") ∧ (str "AXXXB" ≠ str "Xxx")
      ∧ (str "AXXXB" ≠ str "XXX") ∧ (str "AXXXB" ≠ str "t_entity_crud"))
    ∧ rewrite_path (rewrite_path (str "xxx") (str "axxxb")) (str "axxxb")
      ≠ rewrite_path (str "xxx") (str "axxxb")
    ∧ (rewrite_content_bytes
        (rewrite_content_bytes (encodeUtf8 (str "'xxx'")) (str "a.ts")
          (str "axxxb") false).1
        (str "a.ts") (str "axxxb") false).2.1 = true := by
  exact ⟨by decide, ⟨by decide, by decide, by decide, by decide⟩,
    ⟨by decide, by decide, by decide, by decide, by decide⟩, by decide,
    ⟨by decide, by decide, by decide, by decide, by decide⟩, by decide,
    by decide⟩

/-- Claim C3 counterexample: an occurrence of a marker token adjacent to
ASCII word characters on both sides is nevertheless replaced — the
lowercase marker inside a quoted span (string rules use plain substring
replacement with no boundary checks), and the capitalized marker in a code
span (the `Xxx` code rule is a plain `str.replace` as well). -/
theorem c3_counterexample :
    rewrite_text (str "'axxxb'") (str "order") = str "'aorderb'"
    ∧ rewrite_text (str "aXxxb") (str "order") = str "aOrderb" := by
  exact ⟨by decide, by decide⟩

/-- Claim C6 counterexample: for the valid slug `user-profile`,
`to_camel (to_pascal s)` is `userprofile` — its remainder after the first
character differs from the remainder of `to_pascal s` (`UserProfile`),
because `to_camel` re-applies `to_pascal`, which lowercases everything
after the first character of the single undashed word. -/
theorem c6_counterexample :
    valid_slug (str "user-profile") = true
    ∧ to_pascal (str "user-profile") = str "UserProfile"
    ∧ to_camel (to_pascal (str "user-profile")) = str "userprofile"
    ∧ List.drop 1 (to_camel (to_pascal (str "user-profile")))
      ≠ List.drop 1 (to_pascal (str "user-profile")) := by
  exact ⟨by decide, by decide, by decide, by decide⟩

/-- Claim C7 counterexample: on the buffer `"xxxx` (an unterminated
quote), the clone variant raises no error and closes the span at
end-of-buffer, but it does not preserve the characters outside replaced
tokens: the final `x` (not part of the replaced `xxx` token, which the
span-inner extraction `seg[1:-1]` cut off) is dropped, and a closing
double quote that was not in the input appears in the output. -/
theorem c7_counterexample :
    rewrite_content_bytes (encodeUtf8 (str "\"xxxx")) (str "a.ts")
        (str "order") false
      = (encodeUtf8 (str "\"order\""), true, none)
    ∧ List.count 34 (encodeUtf8 (str "\"xxxx")) = 1
    ∧ List.count 34 (encodeUtf8 (str "\"order\"")) = 2
    ∧ List.getLast? (encodeUtf8 (str "\"xxxx")) = some 120
    ∧ List.getLast? (encodeUtf8 (str "\"order\"")) = some 34 := by
  exact ⟨by decide, by decide, by decide, by decide, by decide⟩

/-! ### Segmenter lemmas -/

theorem scanQ_append (q : Char) :
    ∀ s : List Char, ∀ e : Bool, (scanQ q e s).1 ++ (scanQ q e s).2 = s := by
  intro s
  induction s with
  | nil => intro e; cases e <;> rfl
  | cons c rest ih =>
    intro e
    cases e with
    | true =>
      simp only [scanQ, List.cons_append]
      rw [ih false]
    | false =>
      by_cases hb : c = '\\'
      · simp only [scanQ]
        rw [if_pos hb]
        simp only [List.cons_append]
        rw [ih true]
      · by_cases hq : c = q
        · simp only [scanQ]
          rw [if_neg hb, if_pos hq]
          simp
        · simp only [scanQ]
          rw [if_neg hb, if_neg hq]
          simp only [List.cons_append]
          rw [ih false]

theorem scanQ_no_quote (q : Char) :
    ∀ s : List Char, ∀ e : Bool,
      (∀ c ∈ s, c ≠ q) → (∀ c ∈ s, c ≠ '\\') →
      scanQ q e s = (s, []) := by
  intro s
  induction s with
  | nil => intro e _ _; cases e <;> rfl
  | cons c rest ih =>
    intro e h1 h2
    have hq : c ≠ q := h1 c (by simp)
    have hb : c ≠ '\\' := h2 c (by simp)
    have h1r : ∀ x ∈ rest, x ≠ q := fun x hx => h1 x (by simp [hx])
    have h2r : ∀ x ∈ rest, x ≠ '\\' := fun x hx => h2 x (by simp [hx])
    cases e with
    | true =>
      simp only [scanQ]
      rw [ih false h1r h2r]
    | false =>
      simp only [scanQ]
      rw [if_neg hb, if_neg hq, ih false h1r h2r]

theorem dropWhile_length_le (p : Char → Bool) (l : List Char) :
    (List.dropWhile p l).length ≤ l.length := by
  have h := congrArg List.length (List.takeWhile_append_dropWhile p l)
  simp only [List.length_append] at h
  omega

theorem rewriteTextF_fuel (slug : List Char) :
    ∀ f1 f2 : Nat, ∀ s : List Char, s.length ≤ f1 → s.length ≤ f2 →
      rewriteTextF slug f1 s = rewriteTextF slug f2 s := by
  intro f1
  induction f1 with
  | zero =>
    intro f2 s h1 _
    have hs : s = [] := List.eq_nil_of_length_eq_zero (Nat.le_zero.mp h1)
    subst hs
    cases f2 <;> rfl
  | succ f1 ih =>
    intro f2 s h1 h2
    cases s with
    | nil => cases f2 <;> rfl
    | cons c rest =>
      cases f2 with
      | zero => simp at h2
      | succ f2 =>
        simp only [rewriteTextF]
        by_cases hq : isQuoteChar c = true
        · rw [if_pos hq, if_pos hq]
          have hl : (scanQ c false rest).2.length ≤ rest.length := by
            have := congrArg List.length (scanQ_append c rest false)
            simp only [List.length_append] at this
            omega
          congr 1
          exact ih f2 _ (le_trans hl (Nat.le_of_succ_le_succ h1))
            (le_trans hl (Nat.le_of_succ_le_succ h2))
        · rw [if_neg hq, if_neg hq]
          have hl := dropWhile_length_le (fun x => !isQuoteChar x) rest
          congr 1
          exact ih f2 _ (le_trans hl (Nat.le_of_succ_le_succ h1))
            (le_trans hl (Nat.le_of_succ_le_succ h2))

theorem rewrite_text_nil (slug : List Char) : rewrite_text [] slug = [] := rfl

theorem rewrite_text_cons (slug : List Char) (c : Char) (rest : List Char) :
    rewrite_text (c :: rest) slug =
      if isQuoteChar c then
        (if apply_string_rules (List.dropLast (scanQ c false rest).1) slug
            = List.dropLast (scanQ c false rest).1
         then c :: (scanQ c false rest).1
         else (c :: apply_string_rules (List.dropLast (scanQ c false rest).1) slug)
           ++ [c])
        ++ rewrite_text (scanQ c false rest).2 slug
      else
        apply_code_rules (c :: List.takeWhile (fun x => !isQuoteChar x) rest) slug
          ++ rewrite_text (List.dropWhile (fun x => !isQuoteChar x) rest) slug := by
  show rewriteTextF slug (rest.length + 1) (c :: rest) = _
  simp only [rewriteTextF]
  by_cases hq : isQuoteChar c = true
  · rw [if_pos hq, if_pos hq]
    have hl : (scanQ c false rest).2.length ≤ rest.length := by
      have := congrArg List.length (scanQ_append c rest false)
      simp only [List.length_append] at this
      omega
    congr 1
    exact rewriteTextF_fuel slug _ _ _ hl (le_refl _)
  · rw [if_neg hq, if_neg hq]
    have hl := dropWhile_length_le (fun x => !isQuoteChar x) rest
    congr 1
    exact rewriteTextF_fuel slug _ _ _ hl (le_refl _)

/-! ### Claim C7, amended -/

/-- Claim C7, amended: for a buffer consisting of an opening quote
followed by text containing no quote character and no backslash (so the
quote is never closed), the content rewrite raises no error (the model is
a total function, as is the Python loop) and the span closes at
end-of-buffer; but the span's inner text is taken to be the remainder
MINUS its final character (`seg[1:-1]` assumes a closing delimiter), so
when the string rules change the inner text, the output drops that final
character and gains a closing quote that was not in the input; the buffer
is preserved verbatim only when the inner text is left unchanged. -/
theorem c7_unterminated_amended (q : Char) (t slug : List Char)
    (hq : isQuoteChar q = true)
    (h1 : ∀ c ∈ t, isQuoteChar c = false)
    (h2 : ∀ c ∈ t, c ≠ '\\') :
    rewrite_text (q :: t) slug =
      (if apply_string_rules (List.dropLast t) slug = List.dropLast t
       then q :: t
       else (q :: apply_string_rules (List.dropLast t) slug) ++ [q]) := by
  have hnq : ∀ c ∈ t, c ≠ q := by
    intro c hc he
    subst he
    rw [h1 c hc] at hq
    exact Bool.false_ne_true hq
  have hs : scanQ q false t = (t, []) := scanQ_no_quote q t false hnq h2
  rw [rewrite_text_cons, if_pos hq, hs]
  by_cases hch : apply_string_rules (List.dropLast t) slug = List.dropLast t
  · simp [hch, rewrite_text_nil]
  · simp [hch, rewrite_text_nil]

/-- Witness for the amended C7: buffer `"xxxx` with slug `order` — the
inner text `xxx` changes, so the final `x` is dropped and a closing quote
is appended. -/
theorem c7_witness :
    rewrite_text (str "\"xxxx") (str "order")
      = (if apply_string_rules (List.dropLast (str "xxxx")) (str "order")
            = List.dropLast (str "xxxx")
         then '"' :: str "xxxx"
         else ('"' :: apply_string_rules (List.dropLast (str "xxxx"))
            (str "order")) ++ ['"']) :=
  c7_unterminated_amended '"' (str "xxxx") (str "order") (by decide)
    (by decide) (by decide)

/-! ### Character and casing lemmas for claim C6 -/

theorem charLe_iff (a b : Char) : a ≤ b ↔ a.toNat ≤ b.toNat := by
  rw [Char.le_def, UInt32.le_def, BitVec.le_def]
  exact Iff.rfl

theorem toNat_charOfNat (n : Nat) (h : n.isValidChar) :
    (Char.ofNat n).toNat = n := by
  unfold Char.ofNat
  rw [dif_pos h]
  rfl

theorem splitWordsF_fuel :
    ∀ f1 f2 : Nat, ∀ s : List Char, s.length ≤ f1 → s.length ≤ f2 →
      splitWordsF f1 s = splitWordsF f2 s := by
  intro f1
  induction f1 with
  | zero =>
    intro f2 s h1 _
    have hs : s = [] := List.eq_nil_of_length_eq_zero (Nat.le_zero.mp h1)
    subst hs
    cases f2 <;> rfl
  | succ f1 ih =>
    intro f2 s h1 h2
    cases s with
    | nil => cases f2 <;> rfl
    | cons c rest =>
      cases f2 with
      | zero => simp at h2
      | succ f2 =>
        simp only [splitWordsF]
        by_cases hsep : isSepChar c = true
        · rw [if_pos hsep, if_pos hsep]
          exact ih f2 rest (Nat.le_of_succ_le_succ h1) (Nat.le_of_succ_le_succ h2)
        · rw [if_neg hsep, if_neg hsep]
          have hl := dropWhile_length_le (fun x => !isSepChar x) rest
          congr 1
          exact ih f2 _ (le_trans hl (Nat.le_of_succ_le_succ h1))
            (le_trans hl (Nat.le_of_succ_le_succ h2))

theorem splitWords_cons (c : Char) (rest : List Char) :
    splitWords (c :: rest) =
      if isSepChar c then splitWords rest
      else (c :: List.takeWhile (fun x => !isSepChar x) rest)
        :: splitWords (List.dropWhile (fun x => !isSepChar x) rest) := by
  show splitWordsF (rest.length + 1) (c :: rest) = _
  simp only [splitWordsF]
  by_cases hsep : isSepChar c = true
  · rw [if_pos hsep, if_pos hsep]
    exact splitWordsF_fuel _ _ rest (by simp) (le_refl _)
  · rw [if_neg hsep, if_neg hsep]
    congr 1
    exact splitWordsF_fuel _ _ _ (dropWhile_length_le _ _) (le_refl _)

theorem splitWords_mem :
    ∀ n : Nat, ∀ s : List Char, s.length ≤ n →
      ∀ w ∈ splitWords s, ∀ c ∈ w, c ∈ s ∧ isSepChar c = false := by
  intro n
  induction n with
  | zero =>
    intro s h w hw c _
    have hs : s = [] := List.eq_nil_of_length_eq_zero (Nat.le_zero.mp h)
    subst hs
    simp [splitWords, splitWordsF] at hw
  | succ n ih =>
    intro s h w hw c hc
    cases s with
    | nil => simp [splitWords, splitWordsF] at hw
    | cons c0 rest =>
      rw [splitWords_cons] at hw
      by_cases hsep : isSepChar c0 = true
      · rw [if_pos hsep] at hw
        have hres := ih rest (Nat.le_of_succ_le_succ h) w hw c hc
        exact ⟨by simp [hres.1], hres.2⟩
      · rw [if_neg hsep] at hw
        rcases List.mem_cons.mp hw with hw1 | hw2
        · subst hw1
          rcases List.mem_cons.mp hc with hc1 | hc2
          · subst hc1
            exact ⟨by simp, by simpa using hsep⟩
          · have h1 : c ∈ rest := (List.takeWhile_sublist _).subset hc2
            have h2 := List.mem_takeWhile_imp hc2
            exact ⟨by simp [h1], by simpa using h2⟩
        · have hlen : (List.dropWhile (fun x => !isSepChar x) rest).length ≤ n :=
            le_trans (dropWhile_length_le _ _) (Nat.le_of_succ_le_succ h)
          have hres := ih _ hlen w hw2 c hc
          have h1 : c ∈ rest := (List.dropWhile_sublist _).subset hres.1
          exact ⟨by simp [h1], hres.2⟩

theorem splitWords_ne_nil :
    ∀ n : Nat, ∀ s : List Char, s.length ≤ n →
      ∀ w ∈ splitWords s, w ≠ [] := by
  intro n
  induction n with
  | zero =>
    intro s h w hw
    have hs : s = [] := List.eq_nil_of_length_eq_zero (Nat.le_zero.mp h)
    subst hs
    simp [splitWords, splitWordsF] at hw
  | succ n ih =>
    intro s h w hw
    cases s with
    | nil => simp [splitWords, splitWordsF] at hw
    | cons c0 rest =>
      rw [splitWords_cons] at hw
      by_cases hsep : isSepChar c0 = true
      · rw [if_pos hsep] at hw
        exact ih rest (Nat.le_of_succ_le_succ h) w hw
      · rw [if_neg hsep] at hw
        rcases List.mem_cons.mp hw with hw1 | hw2
        · subst hw1; simp
        · exact ih _ (le_trans (dropWhile_length_le _ _)
            (Nat.le_of_succ_le_succ h)) w hw2

theorem to_pascal_first (s : List Char) (c : Char) (r : List Char)
    (h : to_pascal s = c :: r) :
    ∃ c0, c = asciiUpperChar c0 ∧ c0 ∈ s ∧ isSepChar c0 = false := by
  rw [to_pascal] at h
  cases hw : splitWords s with
  | nil => rw [hw] at h; simp at h
  | cons w ws =>
    rw [hw] at h
    have hwmem : w ∈ splitWords s := by rw [hw]; simp
    have hne : w ≠ [] := splitWords_ne_nil s.length s (le_refl _) w hwmem
    cases w with
    | nil => exact absurd rfl hne
    | cons c0 r0 =>
      refine ⟨c0, ?_, ?_, ?_⟩
      · simp only [List.map_cons, wordCase, List.flatten_cons,
          List.cons_append, List.cons.injEq] at h
        exact h.1.symm
      · exact (splitWords_mem s.length s (le_refl _) _ hwmem c0 (by simp)).1
      · exact (splitWords_mem s.length s (le_refl _) _ hwmem c0 (by simp)).2

theorem lower_upper_eq (c0 : Char)
    (h : ('a' ≤ c0 ∧ c0 ≤ 'z') ∨ ('0' ≤ c0 ∧ c0 ≤ '9')) :
    asciiLowerChar (asciiUpperChar c0) = c0 := by
  have ha : ('a').toNat = 97 := rfl
  have hz : ('z').toNat = 122 := rfl
  have h0 : ('0').toNat = 48 := rfl
  have h9 : ('9').toNat = 57 := rfl
  have hA : ('A').toNat = 65 := rfl
  have hZ : ('Z').toNat = 90 := rfl
  rcases h with ⟨h1, h2⟩ | ⟨h1, h2⟩
  · have t1 : 97 ≤ c0.toNat := by rw [charLe_iff, ha] at h1; exact h1
    have t2 : c0.toNat ≤ 122 := by rw [charLe_iff, hz] at h2; exact h2
    rw [asciiUpperChar, if_pos (by
      rw [decide_eq_true h1, decide_eq_true h2]; rfl)]
    have hv : (c0.toNat - 32).isValidChar := Or.inl (by omega)
    have hx : (Char.ofNat (c0.toNat - 32)).toNat = c0.toNat - 32 :=
      toNat_charOfNat _ hv
    rw [asciiLowerChar, if_pos (by
      have hu1 : 'A' ≤ Char.ofNat (c0.toNat - 32) := by
        rw [charLe_iff, hA, hx]; omega
      have hu2 : Char.ofNat (c0.toNat - 32) ≤ 'Z' := by
        rw [charLe_iff, hx, hZ]; omega
      rw [decide_eq_true hu1, decide_eq_true hu2]; rfl)]
    rw [hx]
    have : c0.toNat - 32 + 32 = c0.toNat := by omega
    rw [this, Char.ofNat_toNat]
  · have t1 : 48 ≤ c0.toNat := by rw [charLe_iff, h0] at h1; exact h1
    have t2 : c0.toNat ≤ 57 := by rw [charLe_iff, h9] at h2; exact h2
    have hu : asciiUpperChar c0 = c0 := by
      rw [asciiUpperChar, if_neg]
      intro hc
      rw [Bool.and_eq_true, decide_eq_true_eq, decide_eq_true_eq] at hc
      rw [charLe_iff, ha] at hc
      omega
    rw [hu, asciiLowerChar, if_neg]
    intro hc
    rw [Bool.and_eq_true, decide_eq_true_eq, decide_eq_true_eq] at hc
    rw [charLe_iff, hA] at hc
    omega

/-! ### Claim C6, amended -/

/-- Claim C6, amended: the round-trip property holds for `to_camel`
applied to the slug itself (`to_camel` is `to_pascal` with its first
character lowercased), not for `to_camel (to_pascal s)`: for every slug
matching the accepted pattern, the remainder of `to_camel s` after the
first character equals the remainder of `to_pascal s`, and the first
character of `to_camel s` (when it exists) is a lowercase ASCII letter or
a digit. -/
theorem c6_casing_amended (s : List Char) (hs : valid_slug s = true) :
    List.drop 1 (to_camel s) = List.drop 1 (to_pascal s)
    ∧ (∀ c r, to_camel s = c :: r →
        (('a' ≤ c ∧ c ≤ 'z') ∨ ('0' ≤ c ∧ c ≤ '9'))) := by
  constructor
  · rw [to_camel]
    cases hp : to_pascal s with
    | nil => rfl
    | cons c r => simp
  · intro c r hc
    rw [to_camel] at hc
    cases hp : to_pascal s with
    | nil => rw [hp] at hc; simp at hc
    | cons c1 r1 =>
      rw [hp] at hc
      simp only [List.cons.injEq] at hc
      obtain ⟨hc1, _⟩ := hc
      obtain ⟨c0, hup, hmem, hnsep⟩ := to_pascal_first s c1 r1 hp
      have hclass : ('a' ≤ c0 ∧ c0 ≤ 'z') ∨ ('0' ≤ c0 ∧ c0 ≤ '9') := by
        rw [valid_slug, Bool.and_eq_true, List.all_eq_true] at hs
        have h3 := hs.2 c0 hmem
        simp only [Bool.or_eq_true, Bool.and_eq_true, decide_eq_true_eq] at h3
        rcases h3 with (h4 | h5) | h6
        · exact Or.inl h4
        · exact Or.inr h5
        · exfalso
          subst h6
          simp [isSepChar] at hnsep
      subst hc1
      subst hup
      rw [lower_upper_eq c0 hclass]
      exact hclass

/-- Witness for the amended C6: the slug `user-profile` is valid; its
camel form `userProfile` has remainder `serProfile`, equal to the
remainder of `UserProfile`, and first character `u`. -/
theorem c6_witness :
    List.drop 1 (to_camel (str "user-profile"))
        = List.drop 1 (to_pascal (str "user-profile"))
    ∧ (('a' ≤ 'u' ∧ 'u' ≤ 'z') ∨ ('0' ≤ 'u' ∧ 'u' ≤ '9')) :=
  ⟨(c6_casing_amended (str "user-profile") (by decide)).1,
    (c6_casing_amended (str "user-profile") (by decide)).2 'u'
      (str "serProfile") (by decide)⟩

/-! ### Lookbehind-blocking lemmas for claim C3 -/

theorem subG_eq_self_of_preceded (pat rep : List Char) (la : LA) :
    ∀ s : List Char, ∀ prev : Option Char,
      PrecededOk pat prev s → subG pat rep true la prev s = s := by
  intro s
  induction s with
  | nil => intro prev _; rfl
  | cons c rest ih =>
    intro prev h
    rw [subG_cons]
    have hm : subMatch pat true la prev (c :: rest) = false := by
      by_cases hp : List.isPrefixOf pat (c :: rest) = true
      · have hocc : (c :: rest) = [] ++ pat ++ List.drop pat.length (c :: rest) := by
          have := List.prefix_iff_eq_append.mp (List.isPrefixOf_iff_prefix.mp hp)
          simpa using this.symm
        have hpre := h [] (List.drop pat.length (c :: rest)) hocc
        simp only [List.getLast?_nil] at hpre
        obtain ⟨cw, hcw, hword⟩ := hpre
        subst hcw
        simp [subMatch, lbOk, hword]
      · simp [subMatch, hp]
    rw [if_neg (by simp [hm])]
    congr 1
    apply ih (some c)
    intro a b hab
    have hab2 : c :: rest = (c :: a) ++ pat ++ b := by simp [hab]
    have h2 := h (c :: a) b hab2
    cases a with
    | nil =>
      simp only [List.getLast?_singleton] at h2
      simp only [List.getLast?_nil]
      exact ⟨c, rfl, h2⟩
    | cons a0 as =>
      rw [List.getLast?_cons_cons] at h2
      exact h2

theorem precededOk_extend (pat ext : List Char) (prev : Option Char)
    (s : List Char) (h : PrecededOk pat prev s) :
    PrecededOk (pat ++ ext) prev s := by
  intro a b hab
  exact h a (ext ++ b) (by simpa [List.append_assoc] using hab)

/-! ### Claim C3, amended -/

/-- Claim C3, amended: the identifier-boundary requirement is enforced
only by the regex-based rules (the code-context `xxx` and Id rules carry
the lookbehind `(?<![A-Za-z0-9_])`); the plain substring replacements — the
code-context `Xxx`/`XXX` rules and every generic string-context rule — do
no boundary checking (see the counterexample).  For the code-context
rules: a text in which every occurrence of the lowercase marker is
immediately preceded by an ASCII word character, and which contains no
capitalized marker, no all-caps marker, no legacy marker and no
slug-plus-`Id` occurrence, is returned entirely unchanged by
`apply_code_rules`. -/
theorem c3_boundary_amended (text slug : List Char)
    (hpre : PrecededOk (str "xxx") none text)
    (h1 : containsB (str "t_entity_crud") text = false)
    (h2 : containsB (str "XXX") text = false)
    (h3 : containsB (str "Xxx") text = false)
    (h4 : containsB (slug ++ str "Id") text = false) :
    apply_code_rules text slug = text := by
  have hsplit : str "xxxId" = str "xxx" ++ str "Id" := by decide
  have hxid : PrecededOk (str "xxxId") none text := by
    rw [hsplit]
    exact precededOk_extend (str "xxx") (str "Id") none text hpre
  simp only [apply_code_rules, pyReplace]
  rw [subG_eq_self_of_not_contains (str "t_entity_crud") slug false LA.free
        text none h1,
      subG_eq_self_of_not_contains (str "XXX") (to_upper_underscore slug)
        false LA.free text none h2,
      subG_eq_self_of_not_contains (str "Xxx") (to_pascal slug) false LA.free
        text none h3,
      subG_eq_self_of_preceded (str "xxxId") (to_camel slug ++ str "Id")
        LA.nonword text none hxid,
      subG_eq_self_of_not_contains (slug ++ str "Id")
        (to_camel slug ++ str "Id") true LA.nonword text none h4,
      subG_eq_self_of_preceded (str "xxx") slug LA.word text none hpre,
      subG_eq_self_of_preceded (str "xxx") slug LA.nonword text none hpre]

/-- Witness for the amended C3: in `a_xxx` the only lowercase-marker
occurrence is preceded by the word character `_`, sits after `a_`, and the
code rules leave the text unchanged with slug `order`. -/
theorem c3_witness :
    apply_code_rules (str "a_xxx") (str "order") = str "a_xxx" := by
  have hpre : PrecededOk (str "xxx") none (str "a_xxx") := by
    have hexp : str "a_xxx" = ['a', '_', 'x', 'x', 'x'] := by decide
    have hpat : str "xxx" = ['x', 'x', 'x'] := by decide
    rw [hexp, hpat]
    intro a b hab
    rcases a with _ | ⟨x1, _ | ⟨x2, rest2⟩⟩
    · exfalso
      simp at hab
    · exfalso
      simp at hab
    · have hlen := congrArg List.length hab
      simp at hlen
      have h0 : rest2 = [] := by
        cases rest2 with
        | nil => rfl
        | cons y ys => simp at hlen; omega
      subst h0
      simp at hab
      obtain ⟨hx1, hx2, _⟩ := hab
      subst hx1
      subst hx2
      simp only [List.getLast?_cons_cons, List.getLast?_singleton]
      decide
  exact c3_boundary_amended (str "a_xxx") (str "order") hpre
    (by decide) (by decide) (by decide) (by decide)

/-! ### Marker-freeness lemmas for claim C1 -/

theorem markerFreeB_spec (slug t : List Char) (h : markerFreeB slug t = true) :
    containsB (str "t_entity_crud") t = false
    ∧ containsB (str "XXX") t = false
    ∧ containsB (str "Xxx") t = false
    ∧ containsB (str "xxx") t = false
    ∧ containsB (slug ++ str "Id") t = false
    ∧ containsB (str "@nv/shared/dto/templates/" ++ slug ++ str "/" ++ slug
        ++ str ".dto") t = false := by
  rw [markerFreeB] at h
  simp only [Bool.and_eq_true, Bool.not_eq_true'] at h
  tauto

theorem markerFreeB_intro (slug t : List Char)
    (h1 : containsB (str "t_entity_crud") t = false)
    (h2 : containsB (str "XXX") t = false)
    (h3 : containsB (str "Xxx") t = false)
    (h4 : containsB (str "xxx") t = false)
    (h5 : containsB (slug ++ str "Id") t = false)
    (h6 : containsB (str "@nv/shared/dto/templates/" ++ slug ++ str "/"
        ++ slug ++ str ".dto") t = false) :
    markerFreeB slug t = true := by
  rw [markerFreeB]
  simp only [Bool.and_eq_true, Bool.not_eq_true']
  tauto

theorem markerFreeB_of_middle (slug x y u v : List Char)
    (hx : x = u ++ y ++ v) (h : markerFreeB slug x = true) :
    markerFreeB slug y = true := by
  obtain ⟨h1, h2, h3, h4, h5, h6⟩ := markerFreeB_spec slug x h
  exact markerFreeB_intro slug y
    (containsB_false_of_middle _ x y u v hx h1)
    (containsB_false_of_middle _ x y u v hx h2)
    (containsB_false_of_middle _ x y u v hx h3)
    (containsB_false_of_middle _ x y u v hx h4)
    (containsB_false_of_middle _ x y u v hx h5)
    (containsB_false_of_middle _ x y u v hx h6)

theorem apply_string_rules_id (t slug : List Char)
    (h : markerFreeB slug t = true) :
    apply_string_rules t slug = t := by
  obtain ⟨h1, h2, h3, h4, h5, h6⟩ := markerFreeB_spec slug t h
  have hxid : containsB (str "xxxId") t = false :=
    containsB_false_of_subpat _ (str "xxx") t [] (str "Id") (by decide) h4
  have hdto : containsB (str "@nv/shared/dto/templates/xxx/xxx.dto") t
      = false :=
    containsB_false_of_subpat _ (str "xxx") t
      (str "@nv/shared/dto/templates/") (str "/xxx.dto") (by decide) h4
  simp only [apply_string_rules, pyReplace]
  rw [subG_eq_self_of_not_contains (str "xxxId") (to_camel slug ++ str "Id")
        false LA.nonword t none hxid,
      subG_eq_self_of_not_contains (slug ++ str "Id")
        (to_camel slug ++ str "Id") false LA.nonword t none h5,
      subG_eq_self_of_not_contains (str "t_entity_crud") slug false LA.free
        t none h1,
      subG_eq_self_of_not_contains (str "Xxx") slug false LA.free t none h3,
      subG_eq_self_of_not_contains (str "XXX") slug false LA.free t none h2,
      subG_eq_self_of_not_contains (str "xxx") slug false LA.free t none h4,
      subG_eq_self_of_not_contains (str "@nv/shared/dto/templates/xxx/xxx.dto")
        (str "@nv/shared/dto/" ++ slug ++ str ".dto") false LA.free t none hdto,
      subG_eq_self_of_not_contains
        (str "@nv/shared/dto/templates/" ++ slug ++ str "/" ++ slug
          ++ str ".dto")
        (str "@nv/shared/dto/" ++ slug ++ str ".dto") false LA.free t none h6]

theorem apply_code_rules_id (t slug : List Char)
    (h : markerFreeB slug t = true) :
    apply_code_rules t slug = t := by
  obtain ⟨h1, h2, h3, h4, h5, _⟩ := markerFreeB_spec slug t h
  have hxid : containsB (str "xxxId") t = false :=
    containsB_false_of_subpat _ (str "xxx") t [] (str "Id") (by decide) h4
  simp only [apply_code_rules, pyReplace]
  rw [subG_eq_self_of_not_contains (str "t_entity_crud") slug false LA.free
        t none h1,
      subG_eq_self_of_not_contains (str "XXX") (to_upper_underscore slug)
        false LA.free t none h2,
      subG_eq_self_of_not_contains (str "Xxx") (to_pascal slug) false LA.free
        t none h3,
      subG_eq_self_of_not_contains (str "xxxId") (to_camel slug ++ str "Id")
        true LA.nonword t none hxid,
      subG_eq_self_of_not_contains (slug ++ str "Id")
        (to_camel slug ++ str "Id") true LA.nonword t none h5,
      subG_eq_self_of_not_contains (str "xxx") slug true LA.word t none h4,
      subG_eq_self_of_not_contains (str "xxx") slug true LA.nonword t none h4]

theorem rewrite_text_id :
    ∀ n : Nat, ∀ t : List Char, t.length ≤ n → ∀ slug : List Char,
      markerFreeB slug t = true → rewrite_text t slug = t := by
  intro n
  induction n with
  | zero =>
    intro t h slug _
    have ht : t = [] := List.eq_nil_of_length_eq_zero (Nat.le_zero.mp h)
    subst ht; rfl
  | succ n ih =>
    intro t h slug hm
    cases t with
    | nil => rfl
    | cons c rest =>
      rw [rewrite_text_cons]
      have hsplit := scanQ_append c rest false
      by_cases hq : isQuoteChar c = true
      · rw [if_pos hq]
        obtain ⟨lp, hlp⟩ : ∃ lp, (scanQ c false rest).1
            = List.dropLast (scanQ c false rest).1 ++ lp := by
          cases hr : (scanQ c false rest).1 with
          | nil => exact ⟨[], by simp⟩
          | cons y ys =>
            exact ⟨[(y :: ys).getLast (by simp)],
              by rw [List.dropLast_append_getLast]⟩
        have hdecomp : c :: rest
            = [c] ++ List.dropLast (scanQ c false rest).1
              ++ (lp ++ (scanQ c false rest).2) := by
          have hr : rest = ((List.dropLast (scanQ c false rest).1) ++ lp)
              ++ (scanQ c false rest).2 := by
            rw [← hlp, hsplit]
          conv_lhs => rw [hr]
          simp
        have hinner : markerFreeB slug
            (List.dropLast (scanQ c false rest).1) = true :=
          markerFreeB_of_middle slug (c :: rest) _ [c]
            (lp ++ (scanQ c false rest).2) hdecomp hm
        rw [apply_string_rules_id _ slug hinner, if_pos rfl]
        have hlen2 : (scanQ c false rest).2.length ≤ n := by
          have := congrArg List.length hsplit
          simp only [List.length_append] at this
          have hlen3 : rest.length ≤ n := Nat.le_of_succ_le_succ h
          omega
        have hrest2 : markerFreeB slug (scanQ c false rest).2 = true := by
          apply markerFreeB_of_middle slug (c :: rest) _
            (c :: (scanQ c false rest).1) [] ?_ hm
          conv_lhs => rw [← hsplit]
          simp
        rw [ih _ hlen2 slug hrest2]
        simp only [List.cons_append]
        rw [hsplit]
      · rw [if_neg hq]
        have hdecomp : c :: rest
            = [] ++ (c :: List.takeWhile (fun x => !isQuoteChar x) rest)
              ++ List.dropWhile (fun x => !isQuoteChar x) rest := by
          simp [List.takeWhile_append_dropWhile]
        have hbare : markerFreeB slug
            (c :: List.takeWhile (fun x => !isQuoteChar x) rest) = true :=
          markerFreeB_of_middle slug (c :: rest) _ []
            (List.dropWhile (fun x => !isQuoteChar x) rest) hdecomp hm
        rw [apply_code_rules_id _ slug hbare]
        have hlen2 : (List.dropWhile (fun x => !isQuoteChar x) rest).length
            ≤ n :=
          le_trans (dropWhile_length_le _ _) (Nat.le_of_succ_le_succ h)
        have hrest2 : markerFreeB slug
            (List.dropWhile (fun x => !isQuoteChar x) rest) = true :=
          markerFreeB_of_middle slug (c :: rest) _
            (c :: List.takeWhile (fun x => !isQuoteChar x) rest) [] (by
              simp [List.takeWhile_append_dropWhile]) hm
        rw [ih _ hlen2 slug hrest2]
        simp [List.takeWhile_append_dropWhile]

/-! ### UTF-8 round trip -/

theorem charValidNat (c : Char) :
    c.toNat < 0xd800 ∨ (0xdfff < c.toNat ∧ c.toNat < 0x110000) := by
  have hv := c.valid
  rcases hv with h | ⟨h1, h2⟩
  · left
    exact h
  · right
    exact ⟨h1, h2⟩

theorem decode_encode :
    ∀ cs : List Char, ∀ fuel : Nat, (encodeUtf8 cs).length ≤ fuel →
      decodeUtf8F fuel (encodeUtf8 cs) = some cs := by
  intro cs
  induction cs with
  | nil => intro fuel _; cases fuel <;> rfl
  | cons c rest ih =>
    intro fuel h
    have henc : encodeUtf8 (c :: rest) = utf8EncodeChar c ++ encodeUtf8 rest := by
      simp [encodeUtf8]
    rw [henc] at h ⊢
    have hval := charValidNat c
    by_cases h1 : c.toNat < 0x80
    · have he : utf8EncodeChar c = [c.toNat] := by
        rw [utf8EncodeChar, if_pos h1]
      rw [he] at h ⊢
      cases fuel with
      | zero => simp at h
      | succ f =>
        have hf : (encodeUtf8 rest).length ≤ f := by
          simp at h
          omega
        simp only [List.cons_append, List.nil_append, decodeUtf8F]
        simp only [List.append_eq, List.cons_append, List.nil_append]
        rw [if_pos h1, ih f hf, Char.ofNat_toNat]
    · by_cases h2 : c.toNat < 0x800
      · have he : utf8EncodeChar c
            = [0xC0 + c.toNat / 64, 0x80 + c.toNat % 64] := by
          rw [utf8EncodeChar, if_neg (by omega), if_pos h2]
        rw [he] at h ⊢
        cases fuel with
        | zero => simp at h
        | succ f =>
          have hf : (encodeUtf8 rest).length ≤ f := by
            simp at h
            omega
          simp only [List.cons_append, List.nil_append, decodeUtf8F]
          simp only [List.append_eq, List.cons_append, List.nil_append]
          rw [if_neg (by omega)]
          rw [if_pos (by
            simp only [Bool.and_eq_true, decide_eq_true_eq]
            exact ⟨by omega, by omega⟩)]
          rw [show isCont (0x80 + c.toNat % 64) = true by
            simp only [isCont, Bool.and_eq_true, decide_eq_true_eq]
            exact ⟨by omega, by omega⟩]
          simp only [if_true]
          rw [ih f hf]
          rw [show (0xC0 + c.toNat / 64 - 0xC0) * 64 + (0x80 + c.toNat % 64 - 0x80)
              = c.toNat by omega]
          rw [Char.ofNat_toNat]
      · by_cases h3 : c.toNat < 0x10000
        · have he : utf8EncodeChar c
              = [0xE0 + c.toNat / 4096, 0x80 + (c.toNat / 64) % 64,
                 0x80 + c.toNat % 64] := by
            rw [utf8EncodeChar, if_neg (by omega), if_neg (by omega), if_pos h3]
          rw [he] at h ⊢
          cases fuel with
          | zero => simp at h
          | succ f =>
            have hf : (encodeUtf8 rest).length ≤ f := by
              simp at h
              omega
            simp only [List.cons_append, List.nil_append, decodeUtf8F]
            simp only [List.append_eq, List.cons_append, List.nil_append]
            rw [if_neg (by omega)]
            rw [if_neg (by
              simp only [Bool.and_eq_true, decide_eq_true_eq, not_and]
              intro _
              omega)]
            rw [if_pos (by
              simp only [Bool.and_eq_true, decide_eq_true_eq]
              exact ⟨by omega, by omega⟩)]
            have hc2 : cont2ok (0xE0 + c.toNat / 4096)
                (0x80 + (c.toNat / 64) % 64) = true := by
              rw [cont2ok]
              by_cases hb0 : 0xE0 + c.toNat / 4096 = 0xE0
              · rw [if_pos hb0]
                simp only [Bool.and_eq_true, decide_eq_true_eq]
                exact ⟨by omega, by omega⟩
              · rw [if_neg hb0]
                by_cases hbd : 0xE0 + c.toNat / 4096 = 0xED
                · rw [if_pos hbd]
                  simp only [Bool.and_eq_true, decide_eq_true_eq]
                  rcases hval with hv1 | ⟨hv2, _⟩
                  · exact ⟨by omega, by omega⟩
                  · exact ⟨by omega, by omega⟩
                · rw [if_neg hbd]
                  simp only [isCont, Bool.and_eq_true, decide_eq_true_eq]
                  exact ⟨by omega, by omega⟩
            rw [hc2]
            rw [show isCont (0x80 + c.toNat % 64) = true by
              simp only [isCont, Bool.and_eq_true, decide_eq_true_eq]
              exact ⟨by omega, by omega⟩]
            simp only [Bool.and_self, if_true]
            rw [ih f hf]
            rw [show (0xE0 + c.toNat / 4096 - 0xE0) * 4096
                + (0x80 + (c.toNat / 64) % 64 - 0x80) * 64
                + (0x80 + c.toNat % 64 - 0x80) = c.toNat by omega]
            rw [Char.ofNat_toNat]
        · have h4 : c.toNat < 0x110000 := by
            rcases hval with hv1 | ⟨_, hv3⟩
            · omega
            · exact hv3
          have he : utf8EncodeChar c
              = [0xF0 + c.toNat / 0x40000, 0x80 + (c.toNat / 4096) % 64,
                 0x80 + (c.toNat / 64) % 64, 0x80 + c.toNat % 64] := by
            rw [utf8EncodeChar, if_neg (by omega), if_neg (by omega),
              if_neg (by omega)]
          rw [he] at h ⊢
          cases fuel with
          | zero => simp at h
          | succ f =>
            have hf : (encodeUtf8 rest).length ≤ f := by
              simp at h
              omega
            simp only [List.cons_append, List.nil_append, decodeUtf8F]
            simp only [List.append_eq, List.cons_append, List.nil_append]
            rw [if_neg (by omega)]
            rw [if_neg (by
              simp only [Bool.and_eq_true, decide_eq_true_eq, not_and]
              intro _
              omega)]
            rw [if_neg (by
              simp only [Bool.and_eq_true, decide_eq_true_eq, not_and]
              intro _
              omega)]
            rw [if_pos (by
              simp only [Bool.and_eq_true, decide_eq_true_eq]
              exact ⟨by omega, by omega⟩)]
            have hc3 : cont3ok (0xF0 + c.toNat / 0x40000)
                (0x80 + (c.toNat / 4096) % 64) = true := by
              rw [cont3ok]
              by_cases hb0 : 0xF0 + c.toNat / 0x40000 = 0xF0
              · rw [if_pos hb0]
                simp only [Bool.and_eq_true, decide_eq_true_eq]
                exact ⟨by omega, by omega⟩
              · rw [if_neg hb0]
                by_cases hbd : 0xF0 + c.toNat / 0x40000 = 0xF4
                · rw [if_pos hbd]
                  simp only [Bool.and_eq_true, decide_eq_true_eq]
                  exact ⟨by omega, by omega⟩
                · rw [if_neg hbd]
                  simp only [isCont, Bool.and_eq_true, decide_eq_true_eq]
                  exact ⟨by omega, by omega⟩
            rw [hc3]
            rw [show isCont (0x80 + (c.toNat / 64) % 64) = true by
              simp only [isCont, Bool.and_eq_true, decide_eq_true_eq]
              exact ⟨by omega, by omega⟩]
            rw [show isCont (0x80 + c.toNat % 64) = true by
              simp only [isCont, Bool.and_eq_true, decide_eq_true_eq]
              exact ⟨by omega, by omega⟩]
            simp only [Bool.and_self, if_true]
            rw [ih f hf]
            rw [show (0xF0 + c.toNat / 0x40000 - 0xF0) * 0x40000
                + (0x80 + (c.toNat / 4096) % 64 - 0x80) * 4096
                + (0x80 + (c.toNat / 64) % 64 - 0x80) * 64
                + (0x80 + c.toNat % 64 - 0x80) = c.toNat by omega]
            rw [Char.ofNat_toNat]

theorem decodeUtf8_encodeUtf8 (cs : List Char) :
    decodeUtf8 (encodeUtf8 cs) = some cs :=
  decode_encode cs (encodeUtf8 cs).length (le_refl _)

/-! ### Claim C1, amended -/

/-- Claim C1, amended: idempotence of the rewrite holds whenever the first
output is free of the tokens the rules can still act on — a condition the
claim's hypothesis (no Derived Form IS lexically a placeholder token) does
not guarantee, since a derived form may merely CONTAIN a marker (slug
`axxxb`, see the counterexample) or replacement boundaries may recombine
into one.  Path half: if the rewritten path contains none of the four
marker spellings, rewriting it again changes nothing.  Content half: if
the first output of `rewrite_content_bytes` decodes to a text containing
no marker spelling, no slug-plus-`Id` occurrence and no slug-form
dto-template path, then a second application returns that output unchanged
with `changed = false` and no sample. -/
theorem c1_idempotence_amended :
    (∀ slug p : List Char,
      markerFreePathB (rewrite_path p slug) = true →
      rewrite_path (rewrite_path p slug) slug = rewrite_path p slug)
    ∧ (∀ slug path : List Char, ∀ data : List Nat, ∀ dry1 dry2 : Bool,
      Option.all (fun t => markerFreeB slug t)
          (decodeUtf8 (rewrite_content_bytes data path slug dry1).1) = true →
      rewrite_content_bytes (rewrite_content_bytes data path slug dry1).1
          path slug dry2
        = ((rewrite_content_bytes data path slug dry1).1, false, none)) := by
  constructor
  · intro slug p h
    rw [markerFreePathB] at h
    simp only [Bool.and_eq_true, Bool.not_eq_true'] at h
    obtain ⟨⟨⟨h1, h2⟩, h3⟩, h4⟩ := h
    conv_lhs => rw [rewrite_path]
    simp only [pyReplace]
    rw [subG_eq_self_of_not_contains (str "t_entity_crud") slug false LA.free
          _ none h1,
        subG_eq_self_of_not_contains (str "Xxx") (to_pascal slug) false
          LA.free _ none h3,
        subG_eq_self_of_not_contains (str "XXX") (to_upper_underscore slug)
          false LA.free _ none h2,
        subG_eq_self_of_not_contains (str "xxx") slug false LA.free _ none h4]
  · intro slug path data dry1 dry2 h
    by_cases ht : is_text_file path = true
    · cases hdec : decodeUtf8 data with
      | none =>
        have hfst : rewrite_content_bytes data path slug dry1
            = (data, false, none) := by
          rw [rewrite_content_bytes]
          simp [ht, hdec]
        rw [hfst]
        rw [rewrite_content_bytes]
        simp [ht, hdec]
      | some s =>
        by_cases hch : rewrite_text s slug = s
        · have hfst : rewrite_content_bytes data path slug dry1
              = (data, false, none) := by
            rw [rewrite_content_bytes]
            simp [ht, hdec, hch]
          rw [hfst]
          rw [rewrite_content_bytes]
          simp [ht, hdec, hch]
        · have hfst : rewrite_content_bytes data path slug dry1
              = (encodeUtf8 (rewrite_text s slug), true,
                 if dry1 then some (makeSample s (rewrite_text s slug))
                 else none) := by
            rw [rewrite_content_bytes]
            simp [ht, hdec, hch]
          rw [hfst] at h ⊢
          simp only [decodeUtf8_encodeUtf8, Option.all] at h
          rw [rewrite_content_bytes]
          simp only [ht, Bool.not_true, Bool.false_eq_true, if_false,
            decodeUtf8_encodeUtf8]
          rw [rewrite_text_id (rewrite_text s slug).length _ (le_refl _)
            slug h]
          simp
    · have hfst : rewrite_content_bytes data path slug dry1
          = (data, false, none) := by
        rw [rewrite_content_bytes]
        simp [ht]
      rw [hfst]
      rw [rewrite_content_bytes]
      simp [ht]

/-- Witness for the amended C1: slug `order` on the path `xxx/a.ts` and on
the buffer `const xxx = 1;` — both first outputs are marker-free and the
second run changes nothing. -/
theorem c1_witness :
    (markerFreePathB (rewrite_path (str "xxx/a.ts") (str "order")) = true
      ∧ rewrite_path (rewrite_path (str "xxx/a.ts") (str "order"))
          (str "order")
        = rewrite_path (str "xxx/a.ts") (str "order"))
    ∧ (Option.all (fun t => markerFreeB (str "order") t)
          (decodeUtf8 (rewrite_content_bytes
            (encodeUtf8 (str "const xxx = 1;")) (str "a.ts") (str "order")
            false).1) = true
      ∧ rewrite_content_bytes
          (rewrite_content_bytes (encodeUtf8 (str "const xxx = 1;"))
            (str "a.ts") (str "order") false).1 (str "a.ts") (str "order")
            false
        = ((rewrite_content_bytes (encodeUtf8 (str "const xxx = 1;"))
            (str "a.ts") (str "order") false).1, false, none)) :=
  ⟨⟨by decide, c1_idempotence_amended.1 (str "order") (str "xxx/a.ts")
      (by decide)⟩,
   ⟨by decide, c1_idempotence_amended.2 (str "order") (str "a.ts")
      (encodeUtf8 (str "const xxx = 1;")) false false (by decide)⟩⟩

/-! ### Append decomposition of the scanner, for claim C5 -/

theorem isPrefixOf_append_left (p s t : List Char)
    (h : List.isPrefixOf p s = true) :
    List.isPrefixOf p (s ++ t) = true := by
  apply List.isPrefixOf_iff_prefix.mpr
  rcases List.isPrefixOf_iff_prefix.mp h with ⟨u, hu⟩
  exact ⟨u ++ t, by rw [← List.append_assoc, hu]⟩

theorem isPrefixOf_length_le (p s : List Char)
    (h : List.isPrefixOf p s = true) : p.length ≤ s.length :=
  (List.isPrefixOf_iff_prefix.mp h).length_le

theorem isPrefixOf_of_append_of_le (p s t : List Char)
    (h : List.isPrefixOf p (s ++ t) = true) (hl : p.length ≤ s.length) :
    List.isPrefixOf p s = true := by
  apply List.isPrefixOf_iff_prefix.mpr
  rcases List.isPrefixOf_iff_prefix.mp h with ⟨u, hu⟩
  have htake := congrArg (List.take p.length) hu
  rw [List.take_append_of_le_length (le_refl p.length),
    List.take_append_of_le_length hl] at htake
  simp only [List.take_length] at htake
  rw [List.prefix_iff_eq_take]
  rw [← htake]

theorem eq_of_isPrefixOf_of_length (p s : List Char)
    (h : List.isPrefixOf p s = true) (hl : s.length ≤ p.length) : p = s := by
  rcases List.isPrefixOf_iff_prefix.mp h with ⟨u, hu⟩
  have hlen := congrArg List.length hu
  simp only [List.length_append] at hlen
  have hu0 : u = [] := List.eq_nil_of_length_eq_zero (by omega)
  rw [hu0] at hu
  simpa using hu

theorem isSuffixOf_refl (x : List Char) : List.isSuffixOf x x = true :=
  List.isSuffixOf_iff_suffix.mpr List.suffix_rfl

theorem isSuffixOf_of_suffix_trans (x y z : List Char)
    (h : List.isSuffixOf x y = true) (h2 : y <:+ z) :
    List.isSuffixOf x z = true :=
  List.isSuffixOf_iff_suffix.mpr
    ((List.isSuffixOf_iff_suffix.mp h).trans h2)

theorem prefix_head_eq (p s : List Char) (h : List.isPrefixOf p s = true)
    (hne : p ≠ []) : s.head? = p.head? := by
  rcases List.isPrefixOf_iff_prefix.mp h with ⟨u, hu⟩
  cases p with
  | nil => exact absurd rfl hne
  | cons x l => rw [← hu]; rfl

theorem suffix_getLast_eq (p s : List Char) (h : List.isSuffixOf p s = true)
    (hne : p ≠ []) : s.getLast? = p.getLast? := by
  rcases List.isSuffixOf_iff_suffix.mp h with ⟨u, hu⟩
  rw [← hu, List.getLast?_append]
  cases hp : p.getLast? with
  | none => exact absurd (List.getLast?_eq_none_iff.mp hp) hne
  | some x => rfl

theorem laOk_head (la : LA) (d : Char) (t1 t2 : List Char) :
    laOk la (d :: t1) = laOk la (d :: t2) := by
  cases la <;> rfl

theorem drop_ne_nil_of_lt (p : List Char) (k : Nat) (h : k < p.length) :
    List.drop k p ≠ [] := by
  intro hc
  have := congrArg List.length hc
  simp at this
  omega

theorem take_ne_nil_of_pos (p : List Char) (k : Nat) (h1 : 0 < k)
    (h2 : k ≤ p.length) : List.take k p ≠ [] := by
  intro hc
  have hlen := congrArg List.length hc
  rw [List.length_take] at hlen
  simp only [List.length_nil] at hlen
  omega


theorem subG_append (pat rep : List Char) (la : LA) :
    ∀ n : Nat, ∀ a : List Char, a.length ≤ n → ∀ b : List Char,
      ∀ prev : Option Char,
      (∀ k, 0 < k → k < pat.length →
        ¬(List.isSuffixOf (List.take k pat) a = true
          ∧ List.isPrefixOf (List.drop k pat) b = true)) →
      (la = LA.free ∨ b = []
        ∨ (∃ d bs, b = d :: bs ∧ wordChar d = false)
        ∨ List.isSuffixOf pat a = false) →
      subG pat rep false la prev (a ++ b)
        = subG pat rep false la prev a ++ subG pat rep false la none b := by
  intro n
  induction n with
  | zero =>
    intro a h b prev _ _
    have ha : a = [] := List.eq_nil_of_length_eq_zero (Nat.le_zero.mp h)
    subst ha
    simp only [List.nil_append, subG_nil]
    exact subG_prev_irrel pat rep la prev none b
  | succ n ih =>
    intro a h b prev hspan hla
    cases a with
    | nil =>
      simp only [List.nil_append, subG_nil]
      exact subG_prev_irrel pat rep la prev none b
    | cons c a2 =>
      have hlen_a : a2.length + 1 ≤ n + 1 := by simpa using h
      rw [List.cons_append, subG_cons, subG_cons]
      by_cases hp : List.isPrefixOf pat (c :: a2) = true
      · have hple : pat.length ≤ a2.length + 1 := by
          have := isPrefixOf_length_le pat (c :: a2) hp
          simpa using this
        have hp2 : List.isPrefixOf pat (c :: (a2 ++ b)) = true := by
          have := isPrefixOf_append_left pat (c :: a2) b hp
          simpa using this
        have hdropeq : List.drop pat.length (c :: (a2 ++ b))
            = List.drop pat.length (c :: a2) ++ b := by
          have := @List.drop_append_of_le_length Char (c :: a2) b pat.length
            (by simpa using hple)
          simpa using this
        have hlaeq : laOk la (List.drop pat.length (c :: (a2 ++ b)))
            = laOk la (List.drop pat.length (c :: a2)) := by
          rw [hdropeq]
          cases hdrop : List.drop pat.length (c :: a2) with
          | cons d t =>
            simp only [List.cons_append]
            exact laOk_head la d (t ++ b) t
          | nil =>
            simp only [List.nil_append]
            have hpa : pat = c :: a2 := by
              apply eq_of_isPrefixOf_of_length pat (c :: a2) hp
              have hlen2 := congrArg List.length hdrop
              rw [List.length_drop] at hlen2
              simp only [List.length_nil, List.length_cons] at hlen2
              simp only [List.length_cons]
              omega
            rcases hla with hla1 | hla2 | ⟨d, bs, hbd, hw⟩ | hla4
            · rw [hla1]; rfl
            · rw [hla2]
            · rw [hbd]
              cases la with
              | free => rfl
              | word => simp [laOk, hw]
              | nonword => simp [laOk, hw]
            · exfalso
              rw [hpa] at hla4
              rw [isSuffixOf_refl] at hla4
              exact Bool.true_eq_false.mp hla4
        have hmeq : subMatch pat false la prev (c :: (a2 ++ b))
            = subMatch pat false la prev (c :: a2) := by
          simp only [subMatch, hp, hp2, hlaeq]
        rw [hmeq]
        by_cases hm : subMatch pat false la prev (c :: a2) = true
        · rw [if_pos hm, if_pos hm]
          have hne : pat ≠ [] := by
            intro hc
            simp [subMatch, hc, List.isEmpty] at hm
          have hd2 : List.drop (pat.length - 1) (a2 ++ b)
              = List.drop (pat.length - 1) a2 ++ b := by
            apply List.drop_append_of_le_length
            omega
          rw [hd2]
          have hsub : List.drop (pat.length - 1) a2 <:+ (c :: a2) :=
            (List.drop_suffix _ _).trans (List.suffix_cons c a2)
          rw [ih (List.drop (pat.length - 1) a2)
            (by rw [List.length_drop]; omega) b (List.getLast? pat)
            (fun k hk1 hk2 hk3 => hspan k hk1 hk2
              ⟨isSuffixOf_of_suffix_trans _ _ _ hk3.1 hsub, hk3.2⟩)
            (by
              rcases hla with hla1 | hla2 | hla3 | hla4
              · exact Or.inl hla1
              · exact Or.inr (Or.inl hla2)
              · exact Or.inr (Or.inr (Or.inl hla3))
              · refine Or.inr (Or.inr (Or.inr ?_))
                cases hq : List.isSuffixOf pat (List.drop (pat.length - 1) a2)
                · rfl
                · exfalso
                  rw [isSuffixOf_of_suffix_trans _ _ _ hq hsub] at hla4
                  exact Bool.true_eq_false.mp hla4)]
          rw [List.append_assoc]
        · rw [if_neg hm, if_neg hm]
          have hsub : a2 <:+ (c :: a2) := List.suffix_cons c a2
          rw [ih a2 (by omega) b (some c)
            (fun k hk1 hk2 hk3 => hspan k hk1 hk2
              ⟨isSuffixOf_of_suffix_trans _ _ _ hk3.1 hsub, hk3.2⟩)
            (by
              rcases hla with hla1 | hla2 | hla3 | hla4
              · exact Or.inl hla1
              · exact Or.inr (Or.inl hla2)
              · exact Or.inr (Or.inr (Or.inl hla3))
              · refine Or.inr (Or.inr (Or.inr ?_))
                cases hq : List.isSuffixOf pat a2
                · rfl
                · exfalso
                  rw [isSuffixOf_of_suffix_trans _ _ _ hq hsub] at hla4
                  exact Bool.true_eq_false.mp hla4)]
          rw [List.cons_append]
      · have hp2 : List.isPrefixOf pat (c :: (a2 ++ b)) = false := by
          cases hq : List.isPrefixOf pat (c :: (a2 ++ b))
          · rfl
          · exfalso
            by_cases hple : pat.length ≤ a2.length + 1
            · have hq2 : List.isPrefixOf pat ((c :: a2) ++ b) = true := by
                simpa using hq
              have := isPrefixOf_of_append_of_le pat (c :: a2) b hq2
                (by simpa using hple)
              exact hp this
            · rcases List.isPrefixOf_iff_prefix.mp hq with ⟨u, hu⟩
              have htake : List.take (a2.length + 1) pat = c :: a2 := by
                have h1 := congrArg (List.take (a2.length + 1)) hu
                rw [List.take_append_of_le_length (by omega)] at h1
                rw [List.take_succ_cons] at h1
                rw [List.take_append_of_le_length (le_refl _)] at h1
                rw [List.take_length] at h1
                exact h1
              have hdrop : List.isPrefixOf
                  (List.drop (a2.length + 1) pat) b = true := by
                apply List.isPrefixOf_iff_prefix.mpr
                refine ⟨u, ?_⟩
                have h2 : (c :: a2) ++ (List.drop (a2.length + 1) pat ++ u)
                    = c :: (a2 ++ b) := by
                  rw [← htake, ← List.append_assoc, List.take_append_drop]
                  exact hu
                simp only [List.cons_append, List.cons.injEq] at h2
                obtain ⟨_, h3⟩ := h2
                rw [← List.append_assoc] at h3
                have h4 : a2 ++ (List.drop (a2.length + 1) pat ++ u)
                    = a2 ++ b := by
                  rw [← List.append_assoc]
                  exact h3
                exact List.append_cancel_left h4
              exact hspan (a2.length + 1) (by omega) (by omega)
                ⟨by rw [htake]; exact isSuffixOf_refl _, hdrop⟩
        have hm1 : subMatch pat false la prev (c :: (a2 ++ b)) = false := by
          simp [subMatch, hp2]
        have hm2 : subMatch pat false la prev (c :: a2) = false := by
          simp [subMatch, hp]
        rw [if_neg (by simp [hm1]), if_neg (by simp [hm2])]
        have hsub : a2 <:+ (c :: a2) := List.suffix_cons c a2
        rw [ih a2 (by omega) b (some c)
          (fun k hk1 hk2 hk3 => hspan k hk1 hk2
            ⟨isSuffixOf_of_suffix_trans _ _ _ hk3.1 hsub, hk3.2⟩)
          (by
            rcases hla with hla1 | hla2 | hla3 | hla4
            · exact Or.inl hla1
            · exact Or.inr (Or.inl hla2)
            · exact Or.inr (Or.inr (Or.inl hla3))
            · refine Or.inr (Or.inr (Or.inr ?_))
              cases hq : List.isSuffixOf pat a2
              · rfl
              · exfalso
                rw [isSuffixOf_of_suffix_trans _ _ _ hq hsub] at hla4
                exact Bool.true_eq_false.mp hla4)]
        rw [List.cons_append]

theorem subG_middle (pat rep : List Char) (la : LA) (mid : List Char)
    (d : Char) (midTail : List Char) (hmid : mid = d :: midTail)
    (hd : wordChar d = false)
    (hheads : ∀ k, 0 < k → k < pat.length →
      ¬((List.drop k pat).head? = some d))
    (hsufs : ∀ k, 0 < k → k < pat.length →
      List.isSuffixOf (List.take k pat) mid = false)
    (hla2 : la = LA.free ∨ List.isSuffixOf pat mid = false)
    (pre post : List Char) :
    subG pat rep false la none (pre ++ (mid ++ post))
      = subG pat rep false la none pre
        ++ (subG pat rep false la none mid
          ++ subG pat rep false la none post) := by
  have hj1 := subG_append pat rep la pre.length pre (le_refl _)
    (mid ++ post) none
    (by
      intro k hk1 hk2 hk3
      obtain ⟨_, hpref⟩ := hk3
      have hne : List.drop k pat ≠ [] := drop_ne_nil_of_lt pat k hk2
      have hh := prefix_head_eq _ _ hpref hne
      have hmp : (mid ++ post).head? = some d := by rw [hmid]; rfl
      exact hheads k hk1 hk2 (by rw [← hh, hmp]))
    (by
      right; right; left
      exact ⟨d, midTail ++ post, by rw [hmid]; rfl, hd⟩)
  have hj2 := subG_append pat rep la mid.length mid (le_refl _) post none
    (by
      intro k hk1 hk2 hk3
      obtain ⟨hsuf, _⟩ := hk3
      rw [hsufs k hk1 hk2] at hsuf
      exact Bool.false_ne_true hsuf)
    (by
      rcases hla2 with hfree | hnosuf
      · exact Or.inl hfree
      · exact Or.inr (Or.inr (Or.inr hnosuf)))
  rw [hj1, hj2]

/-! ### Claim C5 -/

/-- Claim C5: compound-path flattening.  For every quoted string literal
whose inner text contains `@nv/shared/dto/templates/xxx/xxx.dto`, the
string-context rules with slug `order` rewrite that occurrence to
`@nv/shared/dto/order.dto`: the surrounding text is processed
independently (no rule match can straddle the occurrence), the generic
lowercase-marker replacement first turns the occurrence into the slug
form, and the dedicated flattening pattern then collapses it.  The
occurrence is scanned for specifically — `apply_string_rules` carries the
two dto patterns as their own passes. -/
theorem c5_dto_flattening (pre post : List Char) :
    apply_string_rules
        (pre ++ str "@nv/shared/dto/templates/xxx/xxx.dto" ++ post)
        (str "order")
      = apply_string_rules pre (str "order")
        ++ str "@nv/shared/dto/order.dto"
        ++ apply_string_rules post (str "order") := by
  have hcam : to_camel (str "order") = str "order" := by decide
  have hid : str "order" ++ str "Id" = str "orderId" := by decide
  have hdto1 : str "@nv/shared/dto/" ++ str "order" ++ str ".dto"
      = str "@nv/shared/dto/order.dto" := by decide
  have hdto2 : str "@nv/shared/dto/templates/" ++ str "order" ++ str "/"
      ++ str "order" ++ str ".dto"
      = str "@nv/shared/dto/templates/order/order.dto" := by decide
  have hp2 : ∀ X : List Char,
      subG (str "orderId") (str "orderId") false LA.nonword none X = X :=
    fun X => subG_self _ _ _ X.length X (le_refl _) none
  have hh1 : ∀ k, k < (str "xxxId").length → (0 < k →
      ((List.drop k (str "xxxId")).head? = some '@' → False)) := by decide
  have hs1 : ∀ k, k < (str "xxxId").length → (0 < k →
      List.isSuffixOf (List.take k (str "xxxId"))
        (str "@nv/shared/dto/templates/xxx/xxx.dto") = false) := by decide
  have hh3 : ∀ k, k < (str "t_entity_crud").length → (0 < k →
      ((List.drop k (str "t_entity_crud")).head? = some '@' → False)) := by
    decide
  have hs3 : ∀ k, k < (str "t_entity_crud").length → (0 < k →
      List.isSuffixOf (List.take k (str "t_entity_crud"))
        (str "@nv/shared/dto/templates/xxx/xxx.dto") = false) := by decide
  have hh4 : ∀ k, k < (str "Xxx").length → (0 < k →
      ((List.drop k (str "Xxx")).head? = some '@' → False)) := by decide
  have hs4 : ∀ k, k < (str "Xxx").length → (0 < k →
      List.isSuffixOf (List.take k (str "Xxx"))
        (str "@nv/shared/dto/templates/xxx/xxx.dto") = false) := by decide
  have hh5 : ∀ k, k < (str "XXX").length → (0 < k →
      ((List.drop k (str "XXX")).head? = some '@' → False)) := by decide
  have hs5 : ∀ k, k < (str "XXX").length → (0 < k →
      List.isSuffixOf (List.take k (str "XXX"))
        (str "@nv/shared/dto/templates/xxx/xxx.dto") = false) := by decide
  have hh6 : ∀ k, k < (str "xxx").length → (0 < k →
      ((List.drop k (str "xxx")).head? = some '@' → False)) := by decide
  have hs6 : ∀ k, k < (str "xxx").length → (0 < k →
      List.isSuffixOf (List.take k (str "xxx"))
        (str "@nv/shared/dto/templates/xxx/xxx.dto") = false) := by decide
  have hh7 : ∀ k, k < (str "@nv/shared/dto/templates/xxx/xxx.dto").length
      → (0 < k →
      ((List.drop k (str "@nv/shared/dto/templates/xxx/xxx.dto")).head?
        = some '@' → False)) := by decide
  have hs7 : ∀ k, k < (str "@nv/shared/dto/templates/xxx/xxx.dto").length
      → (0 < k →
      List.isSuffixOf
        (List.take k (str "@nv/shared/dto/templates/xxx/xxx.dto"))
        (str "@nv/shared/dto/templates/order/order.dto") = false) := by
    decide
  have hh8 : ∀ k,
      k < (str "@nv/shared/dto/templates/order/order.dto").length
      → (0 < k →
      ((List.drop k (str "@nv/shared/dto/templates/order/order.dto")).head?
        = some '@' → False)) := by decide
  have hs8 : ∀ k,
      k < (str "@nv/shared/dto/templates/order/order.dto").length
      → (0 < k →
      List.isSuffixOf
        (List.take k (str "@nv/shared/dto/templates/order/order.dto"))
        (str "@nv/shared/dto/templates/order/order.dto") = false) := by
    decide
  simp only [apply_string_rules, pyReplace, hcam, hid, hdto1, hdto2, hp2]
  rw [List.append_assoc]
  rw [subG_middle (str "xxxId") (str "orderId") LA.nonword
      (str "@nv/shared/dto/templates/xxx/xxx.dto") '@'
      (str "nv/shared/dto/templates/xxx/xxx.dto") (by decide) (by decide)
      (fun k a b => hh1 k b a) (fun k a b => hs1 k b a)
      (Or.inr (by decide)) pre post]
  rw [show subG (str "xxxId") (str "orderId") false LA.nonword none
      (str "@nv/shared/dto/templates/xxx/xxx.dto")
      = str "@nv/shared/dto/templates/xxx/xxx.dto" from by decide]
  rw [subG_middle (str "t_entity_crud") (str "order") LA.free
      (str "@nv/shared/dto/templates/xxx/xxx.dto") '@'
      (str "nv/shared/dto/templates/xxx/xxx.dto") (by decide) (by decide)
      (fun k a b => hh3 k b a) (fun k a b => hs3 k b a)
      (Or.inl rfl)]
  rw [show subG (str "t_entity_crud") (str "order") false LA.free none
      (str "@nv/shared/dto/templates/xxx/xxx.dto")
      = str "@nv/shared/dto/templates/xxx/xxx.dto" from by decide]
  rw [subG_middle (str "Xxx") (str "order") LA.free
      (str "@nv/shared/dto/templates/xxx/xxx.dto") '@'
      (str "nv/shared/dto/templates/xxx/xxx.dto") (by decide) (by decide)
      (fun k a b => hh4 k b a) (fun k a b => hs4 k b a)
      (Or.inl rfl)]
  rw [show subG (str "Xxx") (str "order") false LA.free none
      (str "@nv/shared/dto/templates/xxx/xxx.dto")
      = str "@nv/shared/dto/templates/xxx/xxx.dto" from by decide]
  rw [subG_middle (str "XXX") (str "order") LA.free
      (str "@nv/shared/dto/templates/xxx/xxx.dto") '@'
      (str "nv/shared/dto/templates/xxx/xxx.dto") (by decide) (by decide)
      (fun k a b => hh5 k b a) (fun k a b => hs5 k b a)
      (Or.inl rfl)]
  rw [show subG (str "XXX") (str "order") false LA.free none
      (str "@nv/shared/dto/templates/xxx/xxx.dto")
      = str "@nv/shared/dto/templates/xxx/xxx.dto" from by decide]
  rw [subG_middle (str "xxx") (str "order") LA.free
      (str "@nv/shared/dto/templates/xxx/xxx.dto") '@'
      (str "nv/shared/dto/templates/xxx/xxx.dto") (by decide) (by decide)
      (fun k a b => hh6 k b a) (fun k a b => hs6 k b a)
      (Or.inl rfl)]
  rw [show subG (str "xxx") (str "order") false LA.free none
      (str "@nv/shared/dto/templates/xxx/xxx.dto")
      = str "@nv/shared/dto/templates/order/order.dto" from by decide]
  rw [subG_middle (str "@nv/shared/dto/templates/xxx/xxx.dto")
      (str "@nv/shared/dto/order.dto") LA.free
      (str "@nv/shared/dto/templates/order/order.dto") '@'
      (str "nv/shared/dto/templates/order/order.dto") (by decide) (by decide)
      (fun k a b => hh7 k b a) (fun k a b => hs7 k b a)
      (Or.inl rfl)]
  rw [show subG (str "@nv/shared/dto/templates/xxx/xxx.dto")
      (str "@nv/shared/dto/order.dto") false LA.free none
      (str "@nv/shared/dto/templates/order/order.dto")
      = str "@nv/shared/dto/templates/order/order.dto" from by decide]
  rw [subG_middle (str "@nv/shared/dto/templates/order/order.dto")
      (str "@nv/shared/dto/order.dto") LA.free
      (str "@nv/shared/dto/templates/order/order.dto") '@'
      (str "nv/shared/dto/templates/order/order.dto") (by decide) (by decide)
      (fun k a b => hh8 k b a) (fun k a b => hs8 k b a)
      (Or.inl rfl)]
  rw [show subG (str "@nv/shared/dto/templates/order/order.dto")
      (str "@nv/shared/dto/order.dto") false LA.free none
      (str "@nv/shared/dto/templates/order/order.dto")
      = str "@nv/shared/dto/order.dto" from by decide]
  rw [List.append_assoc]
